import Mathlib

/- Verification development for the pySHAPE core: mesh ingestion (STL parsing and
vertex deduplication), surface metrics, volume/centroid/inertia, the surface
orientation tensor with its shape indices, scalar form descriptors, and
statistical roughness metrics.

Conventions of the embedding:
- Python floats are modelled by real numbers `ℝ` (exact arithmetic); quantities
  that the source manipulates with rational-only operations are modelled by `ℚ`
  so that they stay kernel-computable.
- NumPy arrays are modelled by lists; `(N, 3)` arrays by lists of coordinate
  triples. Shape validation that the typed embedding makes impossible by
  construction is noted at each definition.
- Fallible functions return `Except Err α`, with `Err` following the error
  taxonomy of the project (format, validation, degenerate-geometry, domain
  errors). Python's float division by zero raises; the embedding makes that an
  explicit `zeroDivisionError` branch wherever the source can hit it.
- The LAPACK eigensolvers (`np.linalg.eig` / `np.linalg.eigh`) are external
  collaborators: the embedding takes the solver as a function argument, and
  theorems that depend on its correctness state that contract as a hypothesis. -/

namespace PyShape

/-- Error taxonomy of the project (spec section 7). The source raises Python
exceptions; each raise site is mapped to its documented category.
`zeroDivisionError` stands for Python's built-in ZeroDivisionError, which is not
part of the documented taxonomy but is reachable in `sphericity_wadell`. -/
inductive Err where
  | formatError
  | validationError
  | degenerateError
  | domainError
  | zeroDivisionError
  deriving DecidableEq

/-! ## FormDescriptors: `pyshape.form.sphericity_wadell`

Source (form.py, lines 12-18):
```
def sphericity_wadell(volume, surface_area):
    if volume < 0: raise ValueError("volume must be >= 0")
    if surface_area <= 0: raise ValueError("surface_area must be > 0")
    return float(6.0 * volume / (((6.0 * volume / np.pi) ** (1.0 / 3.0)) * surface_area))
```
In Python, `x / 0.0` raises ZeroDivisionError for plain floats, so the final
division is guarded by an explicit zero test in the embedding. -/

/-- Embedding of `sphericity_wadell`.  The two validation raises are the
`domainError` branches; the final division raises ZeroDivisionError whenever
the denominator `(6V/π)^(1/3) * A` is zero, which happens exactly at `V = 0`
once the validations have passed. -/
noncomputable def sphericity_wadell (volume surfArea : ℝ) : Except Err ℝ :=
  if volume < 0 then .error .domainError
  else if surfArea ≤ 0 then .error .domainError
  else
    let denom : ℝ := (6 * volume / Real.pi) ^ ((1 : ℝ) / 3) * surfArea
    if denom = 0 then .error .zeroDivisionError
    else .ok (6 * volume / denom)

/-- On strictly positive volume and area, `sphericity_wadell` returns the
documented formula `6V / ((6V/π)^(1/3) · A)` without error. -/
theorem sphericity_wadell_pos_eq (V A : ℝ) (hV : 0 < V) (hA : 0 < A) :
    sphericity_wadell V A = .ok (6 * V / ((6 * V / Real.pi) ^ ((1 : ℝ) / 3) * A)) := by
  have hbase : 0 < 6 * V / Real.pi := div_pos (by linarith) Real.pi_pos
  have hpow : 0 < (6 * V / Real.pi) ^ ((1 : ℝ) / 3) := Real.rpow_pos_of_pos hbase _
  have hden : (6 * V / Real.pi) ^ ((1 : ℝ) / 3) * A ≠ 0 := by positivity
  unfold sphericity_wadell
  rw [if_neg (by linarith), if_neg (by linarith), if_neg hden]

/-- The function `sphericity_wadell` raises DomainError exactly when `A ≤ 0` or `V < 0`. -/
theorem sphericity_wadell_domain_iff (V A : ℝ) :
    sphericity_wadell V A = .error .domainError ↔ A ≤ 0 ∨ V < 0 := by
  unfold sphericity_wadell
  by_cases hV : V < 0
  · simp [hV]
  · rw [if_neg hV]
    by_cases hA : A ≤ 0
    · simp [hA]
    · rw [if_neg hA]
      by_cases hz : (6 * V / Real.pi) ^ ((1 : ℝ) / 3) * A = 0
      · simp only [if_pos hz]
        constructor
        · intro h; cases h
        · intro h; cases h with
          | inl h => exact absurd h hA
          | inr h => exact absurd h hV
      · simp only [if_neg hz]
        constructor
        · intro h; cases h
        · intro h; cases h with
          | inl h => exact absurd h hA
          | inr h => exact absurd h hV

/-- C1: the claim states that `V = 0` with `A > 0` is accepted and yields a
value.  The code instead hits `0.0 / 0.0` there, because
`(6·0/π)^(1/3) · A = 0`: at volume `0` and surface area `1` the call raises
ZeroDivisionError rather than returning a value.  (The validation guard
explicitly admits `V = 0`, and the code's own comment equates the expression
with `π^(1/3)·(6V)^(2/3)/A`, which is `0` at `V = 0`, so the intent is that
`V = 0` succeed: the division is the slip.) -/
theorem sphericity_wadell_zero_volume_raises :
    sphericity_wadell 0 1 = .error .zeroDivisionError := by
  unfold sphericity_wadell
  rw [if_neg (by norm_num), if_neg (by norm_num)]
  have h : (6 * (0 : ℝ) / Real.pi) ^ ((1 : ℝ) / 3) * 1 = 0 := by
    rw [mul_one, mul_zero, zero_div, Real.zero_rpow (by norm_num)]
  rw [if_pos h]

/-! ## SurfaceMetrics: `pyshape.geometry.surface_area`

Node arrays are `(N, 3)` float arrays; float64 values are rational numbers, so
node coordinates are modelled by `ℚ` triples (the square root in the triangle
area is the only irrational step, and lands in `ℝ`).  Face arrays are `(M, 3)`
integer arrays, modelled by `ℤ` triples.  The `(N, 3)` / `(M, 3)` shape
validation is enforced by the types. -/

abbrev Q3 := ℚ × ℚ × ℚ

def subQ3 (a b : Q3) : Q3 := (a.1 - b.1, a.2.1 - b.2.1, a.2.2 - b.2.2)

/-- Componentwise cross product, as computed by `np.cross`. -/
def crossQ3 (a b : Q3) : Q3 :=
  (a.2.1 * b.2.2 - a.2.2 * b.2.1, a.2.2 * b.1 - a.1 * b.2.2, a.1 * b.2.1 - a.2.1 * b.1)

def dotQ3 (a b : Q3) : ℚ := a.1 * b.1 + a.2.1 * b.2.1 + a.2.2 * b.2.2

/-- Euclidean norm of a row, as computed by `np.linalg.norm(v, axis=1)`. -/
noncomputable def normQ3 (v : Q3) : ℝ := Real.sqrt ((dotQ3 v v : ℚ) : ℝ)

/-- All face indices as one flat list, the order irrelevant for min/max:
models flattening of the `(M, 3)` integer array. -/
def facesFlat (faces : List (ℤ × ℤ × ℤ)) : List ℤ :=
  faces.foldr (fun f acc => f.1 :: f.2.1 :: f.2.2 :: acc) []

/-- Models `arr.min()` of a nonempty integer array (`0` as an unused default for the
empty case, which every use guards against with `faces.size`). -/
def listMinD (l : List ℤ) : ℤ :=
  match l with
  | [] => 0
  | x :: xs => xs.foldl min x

/-- Models `arr.max()` of a nonempty integer array. -/
def listMaxD (l : List ℤ) : ℤ :=
  match l with
  | [] => 0
  | x :: xs => xs.foldl max x

def subOneF (f : ℤ × ℤ × ℤ) : ℤ × ℤ × ℤ := (f.1 - 1, f.2.1 - 1, f.2.2 - 1)

/-- The 1-based auto-detection shared by `surface_area`,
`volume_centroid_inertia_tensor` (on 4-tuples) and
`surface_orientation_tensor`: `if faces.size and faces.min() == 1 and
faces.max() == nodes.shape[0]: faces = faces - 1`. -/
def convertFaces (N : ℕ) (faces : List (ℤ × ℤ × ℤ)) : List (ℤ × ℤ × ℤ) :=
  if faces ≠ [] ∧ listMinD (facesFlat faces) = 1 ∧ listMaxD (facesFlat faces) = (N : ℤ)
  then faces.map subOneF else faces

/-- The range validation `faces.size and (faces.min() < 0 or faces.max() >= N)`. -/
def facesOutOfRange (N : ℕ) (faces : List (ℤ × ℤ × ℤ)) : Prop :=
  faces ≠ [] ∧ (listMinD (facesFlat faces) < 0 ∨ (N : ℤ) ≤ listMaxD (facesFlat faces))

instance (N : ℕ) (faces : List (ℤ × ℤ × ℤ)) : Decidable (facesOutOfRange N faces) := by
  unfold facesOutOfRange; infer_instance

/-- Area of one triangle: `0.5 * ‖(B - A) × (C - A)‖` with `A, B, C` the rows of
`nodes` selected by the face's three indices. -/
noncomputable def triAreaSA (nodes : List Q3) (f : ℤ × ℤ × ℤ) : ℝ :=
  let A := nodes.getD f.1.toNat (0, 0, 0)
  let B := nodes.getD f.2.1.toNat (0, 0, 0)
  let C := nodes.getD f.2.2.toNat (0, 0, 0)
  normQ3 (crossQ3 (subQ3 B A) (subQ3 C A)) / 2

/-- Embedding of `surface_area` (geometry.py, lines 4-41): 1-based
auto-conversion, range validation, then the summed triangle areas. -/
noncomputable def surface_area (nodes : List Q3) (faces : List (ℤ × ℤ × ℤ)) :
    Except Err ℝ :=
  let faces' := convertFaces nodes.length faces
  if facesOutOfRange nodes.length faces' then .error .validationError
  else .ok ((faces'.map (triAreaSA nodes)).sum)

theorem facesFlat_map_subOneF (faces : List (ℤ × ℤ × ℤ)) :
    facesFlat (faces.map subOneF) = (facesFlat faces).map (· - 1) := by
  induction faces with
  | nil => rfl
  | cons f fs ih => simp [facesFlat, subOneF] at ih ⊢; exact ih

theorem foldl_min_map_sub_one (xs : List ℤ) (a : ℤ) :
    (xs.map (· - 1)).foldl min (a - 1) = xs.foldl min a - 1 := by
  induction xs generalizing a with
  | nil => rfl
  | cons x xs ih => simpa [min_sub_sub_right] using ih (min a x)

theorem foldl_max_map_sub_one (xs : List ℤ) (a : ℤ) :
    (xs.map (· - 1)).foldl max (a - 1) = xs.foldl max a - 1 := by
  induction xs generalizing a with
  | nil => rfl
  | cons x xs ih => simpa [max_sub_sub_right] using ih (max a x)

theorem listMinD_map_sub_one (x : ℤ) (xs : List ℤ) :
    listMinD ((x :: xs).map (· - 1)) = listMinD (x :: xs) - 1 := by
  simpa [listMinD] using foldl_min_map_sub_one xs x

theorem listMaxD_map_sub_one (x : ℤ) (xs : List ℤ) :
    listMaxD ((x :: xs).map (· - 1)) = listMaxD (x :: xs) - 1 := by
  simpa [listMaxD] using foldl_max_map_sub_one xs x

/-- C3 (counterexample): with 4 nodes, the face list `[(1,2,3)]` has every
index in `[1, 4]`, i.e. it is a valid 1-based face list in the claim's sense,
but `max ≠ N` so no conversion happens: the indices are read 0-based and the
computed area (`3/2`, the triangle on nodes 1,2,3) differs from the area under
the shifted faces (`1/2`, the triangle on nodes 0,1,2). -/
theorem surface_area_one_based_counterexample :
    surface_area [((0:ℚ), (0:ℚ), (0:ℚ)), (1, 0, 0), (0, 1, 0), (0, 0, 2)]
        [((1:ℤ), 2, 3)] = .ok (3 / 2) ∧
    surface_area [((0:ℚ), (0:ℚ), (0:ℚ)), (1, 0, 0), (0, 1, 0), (0, 0, 2)]
        [((0:ℤ), 1, 2)] = .ok (1 / 2) ∧
    ((3:ℝ) / 2) ≠ 1 / 2 := by
  refine ⟨?_, ?_, by norm_num⟩
  · have h1 : convertFaces 4 [((1:ℤ), 2, 3)] = [((1:ℤ), 2, 3)] := by decide
    have h2 : ¬ facesOutOfRange 4 [((1:ℤ), 2, 3)] := by decide
    have hlen : [((0:ℚ), (0:ℚ), (0:ℚ)), (1, 0, 0), (0, 1, 0), (0, 0, 2)].length = 4 := rfl
    simp only [surface_area, hlen, h1, if_neg h2, List.map_cons, List.map_nil,
      List.sum_cons, List.sum_nil, add_zero]
    have : triAreaSA [((0:ℚ), (0:ℚ), (0:ℚ)), (1, 0, 0), (0, 1, 0), (0, 0, 2)]
        ((1:ℤ), 2, 3) = Real.sqrt ((9:ℚ) : ℝ) / 2 := by
      simp [triAreaSA, subQ3, crossQ3, dotQ3, normQ3]
      norm_num
    rw [this]
    norm_num
    rw [show (9:ℝ) = 3 ^ 2 by norm_num, Real.sqrt_sq (by norm_num)]
  · have h1 : convertFaces 4 [((0:ℤ), 1, 2)] = [((0:ℤ), 1, 2)] := by decide
    have h2 : ¬ facesOutOfRange 4 [((0:ℤ), 1, 2)] := by decide
    have hlen : [((0:ℚ), (0:ℚ), (0:ℚ)), (1, 0, 0), (0, 1, 0), (0, 0, 2)].length = 4 := rfl
    simp only [surface_area, hlen, h1, if_neg h2, List.map_cons, List.map_nil,
      List.sum_cons, List.sum_nil, add_zero]
    have : triAreaSA [((0:ℚ), (0:ℚ), (0:ℚ)), (1, 0, 0), (0, 1, 0), (0, 0, 2)]
        ((0:ℤ), 1, 2) = Real.sqrt ((1:ℚ) : ℝ) / 2 := by
      simp [triAreaSA, subQ3, crossQ3, dotQ3, normQ3]
    rw [this]
    norm_num [Real.sqrt_one]

/-- C3 (amended): for every nonempty face list whose flattened minimum is `1`
and whose maximum is `N` — the exact condition under which the source converts
1-based indices — `surface_area` agrees with the call on the 0-based shift
`F - 1`.  (For other face lists with all indices in `[1, N]` the indices are
interpreted as 0-based, and the results can differ, per the counterexample.) -/
theorem surface_area_one_based_conversion (nodes : List Q3)
    (faces : List (ℤ × ℤ × ℤ)) (hne : faces ≠ [])
    (hmin : listMinD (facesFlat faces) = 1)
    (hmax : listMaxD (facesFlat faces) = (nodes.length : ℤ)) :
    surface_area nodes faces = surface_area nodes (faces.map subOneF) := by
  obtain ⟨f, fs, rfl⟩ := List.exists_cons_of_ne_nil hne
  have hflat : facesFlat (f :: fs) = f.1 :: f.2.1 :: f.2.2 :: facesFlat fs := rfl
  have hconv1 : convertFaces nodes.length (f :: fs) = (f :: fs).map subOneF := by
    unfold convertFaces
    rw [if_pos ⟨by simp, hmin, hmax⟩]
  have hminm : listMinD (facesFlat ((f :: fs).map subOneF)) = 0 := by
    rw [facesFlat_map_subOneF, hflat, listMinD_map_sub_one, ← hflat, hmin]
    norm_num
  have hconv2 : convertFaces nodes.length ((f :: fs).map subOneF)
      = (f :: fs).map subOneF := by
    unfold convertFaces
    rw [if_neg]
    rintro ⟨-, hone, -⟩
    rw [hminm] at hone
    exact absurd hone (by norm_num)
  simp only [surface_area, hconv1, hconv2]

/-- C3 witness: a 3-node mesh whose single face `(1,2,3)` triggers the
conversion; both index conventions give the same call result. -/
theorem surface_area_one_based_conversion_witness :
    surface_area [((0:ℚ), (0:ℚ), (0:ℚ)), (1, 0, 0), (0, 1, 0)] [((1:ℤ), 2, 3)]
      = surface_area [((0:ℚ), (0:ℚ), (0:ℚ)), (1, 0, 0), (0, 1, 0)] [((0:ℤ), 1, 2)] := by
  have h := surface_area_one_based_conversion
    [((0:ℚ), (0:ℚ), (0:ℚ)), (1, 0, 0), (0, 1, 0)] [((1:ℤ), 2, 3)]
    (by decide) (by decide) (by decide)
  simpa [subOneF] using h

/-- C10: `surface_area` accepts an empty face list and returns exactly `0`
(both the conversion branch and the range validation are guarded by
`faces.size`, so the empty array passes through), and every successful result
is a sum of triangle areas `‖·‖/2 ≥ 0`, hence non-negative. -/
theorem surface_area_empty_and_nonneg (nodes : List Q3) :
    surface_area nodes [] = .ok 0 ∧
    ∀ faces r, surface_area nodes faces = .ok r → 0 ≤ r := by
  constructor
  · have hconv : convertFaces nodes.length [] = [] := by
      unfold convertFaces
      rw [if_neg]
      rintro ⟨h, -⟩
      exact h rfl
    have hval : ¬ facesOutOfRange nodes.length [] := by
      rintro ⟨h, -⟩
      exact h rfl
    simp [surface_area, hconv, hval]
  · intro faces r h
    simp only [surface_area] at h
    split at h
    · cases h
    · have hr : ((convertFaces nodes.length faces).map (triAreaSA nodes)).sum = r := by
        simpa using h
      rw [← hr]
      apply List.sum_nonneg
      intro x hx
      obtain ⟨f, -, rfl⟩ := List.mem_map.mp hx
      unfold triAreaSA normQ3
      positivity

/-- C10 witness: concrete instance with one node and no faces. -/
theorem surface_area_empty_and_nonneg_witness :
    surface_area [((0:ℚ), (0:ℚ), (0:ℚ))] [] = .ok 0 ∧ (0:ℝ) ≤ 0 :=
  ⟨(surface_area_empty_and_nonneg [((0:ℚ), (0:ℚ), (0:ℚ))]).1,
   (surface_area_empty_and_nonneg [((0:ℚ), (0:ℚ), (0:ℚ))]).2 [] 0
     (surface_area_empty_and_nonneg [((0:ℚ), (0:ℚ), (0:ℚ))]).1⟩

/-! ## RoughnessEngine: `pyshape.roughness`

Height samples are float64 values, modelled by `ℚ`; the square roots land in
`ℝ`.  `sq`, `sku`, `ssk` flatten their input (`np.mean` over all samples), so
they take a flat `List ℚ`; `sdq` requires a 2-D grid, modelled as a
rectangular list of rows.  `_mean_center`'s `ndim < 1` check cannot fire on a
typed list input.  `np.mean` of an empty array is NaN in the source; the
embedding's `meanQ` is only used under a nonempty hypothesis in the theorems. -/

def meanQ (z : List ℚ) : ℚ := z.sum / z.length

/-- Models `sq(z) = sqrt(mean((z - mean(z))**2))`, the population RMS height. -/
noncomputable def sq (z : List ℚ) : ℝ :=
  Real.sqrt ((meanQ (z.map (fun x => (x - meanQ z) ^ 2)) : ℚ) : ℝ)

/-- Float results of `sku`/`ssk`: a finite value, `float(np.inf)`, or
`float(np.nan)`. -/
inductive FVal where
  | val (x : ℝ)
  | posInf
  | nan

/-- Embedding of `sku(z, sq_value=None)` (roughness.py, lines 87-107). -/
noncomputable def sku (z : List ℚ) (sqValue : Option ℝ) : FVal :=
  let zm := meanQ z
  let s := sqValue.getD (sq z)
  if s = 0 then .posInf
  else .val ((meanQ (z.map (fun x => (x - zm) ^ 4)) : ℚ) / s ^ 4)

/-- Embedding of `ssk(z, sq_value=None)` (roughness.py, lines 110-130). -/
noncomputable def ssk (z : List ℚ) (sqValue : Option ℝ) : FVal :=
  let zm := meanQ z
  let s := sqValue.getD (sq z)
  if s = 0 then .nan
  else .val ((meanQ (z.map (fun x => (x - zm) ^ 3)) : ℚ) / s ^ 3)

/-- A nested list is a well-formed 2-D array when every row has the length of
the first row (`np.asarray` rejects ragged nested lists). -/
def isRect (z : List (List ℚ)) : Prop := ∀ r ∈ z, r.length = (z.headD []).length

instance (z : List (List ℚ)) : Decidable (isRect z) := by
  unfold isRect; infer_instance

/-- Models `np.diff(row)`: adjacent forward differences within one row. -/
def rowDiff (r : List ℚ) : List ℚ := List.zipWith (fun b a => b - a) r.tail r

/-- Models `np.diff(Z, axis=1)`: forward differences along columns, per row. -/
def gridDiffRows (z : List (List ℚ)) : List (List ℚ) := z.map rowDiff

/-- Models `np.diff(Z, axis=0)`: forward differences along rows. -/
def gridDiffCols (z : List (List ℚ)) : List (List ℚ) :=
  List.zipWith (fun r1 r0 => List.zipWith (fun b a => b - a) r1 r0) z.tail z

/-- Models `np.sum((D / scale) ** 2)` over a difference grid. -/
def sumSqScaled (d : List (List ℚ)) (scale : ℚ) : ℚ :=
  (d.map (fun r => (r.map (fun x => (x / scale) ^ 2)).sum)).sum

/-- Embedding of `sdq(z, dx, dy)` (roughness.py, lines 47-84): 2-D check, then
`dx, dy > 0`, then both dimensions at least 2; forward differences divided by
the spacings, squared, summed, with the single shared normalizer
`(M-1)*(N-1)`. -/
noncomputable def sdq (z : List (List ℚ)) (dx dy : ℚ) : Except Err ℝ :=
  if ¬ isRect z then .error .validationError
  else if dx ≤ 0 ∨ dy ≤ 0 then .error .validationError
  else if z.length < 2 ∨ (z.headD []).length < 2 then .error .validationError
  else
    let num : ℚ := sumSqScaled (gridDiffRows z) dx + sumSqScaled (gridDiffCols z) dy
    let denom : ℚ := ((z.length - 1) * ((z.headD []).length - 1) : ℕ)
    .ok (Real.sqrt ((num / denom : ℚ) : ℝ))

/-- C9: on any nonempty height grid, if the RMS height `sq(z)` is zero (a
perfectly flat grid) then `sku` returns positive infinity and `ssk` returns
not-a-number, and neither errors (they have no other failure path on a typed
nonempty input); if `sq(z) > 0` they return `mean((z-mean)⁴)/sq⁴` and
`mean((z-mean)³)/sq³`. -/
theorem sku_ssk_sentinels_and_moments (z : List ℚ) (_hz : z ≠ []) :
    (sq z = 0 → sku z none = .posInf ∧ ssk z none = .nan) ∧
    (0 < sq z →
      sku z none = .val ((meanQ (z.map (fun x => (x - meanQ z) ^ 4)) : ℚ) / sq z ^ 4) ∧
      ssk z none = .val ((meanQ (z.map (fun x => (x - meanQ z) ^ 3)) : ℚ) / sq z ^ 3)) := by
  constructor
  · intro h0
    constructor
    · unfold sku
      simp [h0]
    · unfold ssk
      simp [h0]
  · intro hpos
    have hne : sq z ≠ 0 := ne_of_gt hpos
    constructor
    · unfold sku
      simp [hne]
    · unfold ssk
      simp [hne]

/-- C9 witness: the flat grid `[1, 1]` has `sq = 0` and hits both sentinels;
the grid `[0, 2]` has `sq = 1 > 0` and returns the moment ratios. -/
theorem sku_ssk_sentinels_and_moments_witness :
    (sku [(1:ℚ), 1] none = .posInf ∧ ssk [(1:ℚ), 1] none = .nan) ∧
    sku [(0:ℚ), 2] none
      = .val ((meanQ ([(0:ℚ), 2].map (fun x => (x - meanQ [(0:ℚ), 2]) ^ 4)) : ℚ)
          / sq [(0:ℚ), 2] ^ 4) := by
  have h1 : meanQ [(1:ℚ), 1] = 1 := by norm_num [meanQ]
  have hsq1 : sq [(1:ℚ), 1] = 0 := by
    unfold sq
    rw [show ([(1:ℚ), 1].map (fun x => (x - meanQ [(1:ℚ), 1]) ^ 2)) = [0, 0] by
      rw [h1]; norm_num]
    norm_num [meanQ, Real.sqrt_zero]
  have h2 : meanQ [(0:ℚ), 2] = 1 := by norm_num [meanQ]
  have hsq2 : sq [(0:ℚ), 2] = 1 := by
    unfold sq
    rw [show ([(0:ℚ), 2].map (fun x => (x - meanQ [(0:ℚ), 2]) ^ 2)) = [1, 1] by
      rw [h2]; norm_num]
    norm_num [meanQ, Real.sqrt_one]
  refine ⟨(sku_ssk_sentinels_and_moments [(1:ℚ), 1] (by decide)).1 hsq1, ?_⟩
  exact ((sku_ssk_sentinels_and_moments [(0:ℚ), 2] (by decide)).2
    (by rw [hsq2]; norm_num)).1

/-- Grid sample accessor for the specification-side formula. -/
def gq (z : List (List ℚ)) (i j : ℕ) : ℚ := (z.getD i []).getD j 0

theorem list_sum_map_eq_range_sum {α : Type} (l : List α) (d : α) (h : α → ℚ) :
    (l.map h).sum = ∑ j in Finset.range l.length, h (l.getD j d) := by
  induction l with
  | nil => simp
  | cons x xs ih =>
      rw [List.map_cons, List.sum_cons, ih, List.length_cons,
        Finset.sum_range_succ']
      simp [add_comm]

theorem getD_tail (r : List ℚ) (j : ℕ) (d : ℚ) : r.tail.getD j d = r.getD (j + 1) d := by
  cases r <;> rfl

theorem getD_tail_rows (z : List (List ℚ)) (i : ℕ) :
    z.tail.getD i [] = z.getD (i + 1) [] := by
  cases z <;> rfl

theorem zipWith_sub_getD (a b : List ℚ) (j : ℕ)
    (hj : j < min a.length b.length) :
    (List.zipWith (fun x y => x - y) a b).getD j 0 = a.getD j 0 - b.getD j 0 := by
  induction a generalizing b j with
  | nil => simp at hj
  | cons x xs ih =>
      cases b with
      | nil => simp at hj
      | cons y ys =>
          cases j with
          | zero => rfl
          | succ j =>
              simp only [List.length_cons, lt_min_iff, Nat.succ_lt_succ_iff] at hj
              simpa using ih ys j (lt_min_iff.mpr hj)

theorem zipWith_sub_rows_getD (a b : List (List ℚ)) (i : ℕ)
    (hi : i < min a.length b.length) :
    (List.zipWith (fun r1 r0 => List.zipWith (fun x y => x - y) r1 r0) a b).getD i []
      = List.zipWith (fun x y => x - y) (a.getD i []) (b.getD i []) := by
  induction a generalizing b i with
  | nil => simp at hi
  | cons x xs ih =>
      cases b with
      | nil => simp at hi
      | cons y ys =>
          cases i with
          | zero => rfl
          | succ i =>
              simp only [List.length_cons, lt_min_iff, Nat.succ_lt_succ_iff] at hi
              simpa using ih ys i (lt_min_iff.mpr hi)

theorem rect_row_len (z : List (List ℚ)) (hrect : isRect z) (i : ℕ)
    (hi : i < z.length) : (z.getD i []).length = (z.headD []).length := by
  apply hrect
  rw [List.getD_eq_getElem _ _ hi]
  exact List.getElem_mem hi

theorem rowDiff_sum (r : List ℚ) (c : ℚ) :
    ((rowDiff r).map (fun x => (x / c) ^ 2)).sum
      = ∑ j in Finset.range (r.length - 1), ((r.getD (j + 1) 0 - r.getD j 0) / c) ^ 2 := by
  rw [list_sum_map_eq_range_sum (rowDiff r) 0]
  have hlen : (rowDiff r).length = r.length - 1 := by
    simp [rowDiff, List.length_zipWith, List.length_tail]
  rw [hlen]
  refine Finset.sum_congr rfl fun j hj => ?_
  rw [Finset.mem_range] at hj
  have hj' : j < min r.tail.length r.length := by
    simp only [List.length_tail, lt_min_iff]
    exact ⟨hj, lt_of_lt_of_le hj (Nat.sub_le _ _)⟩
  rw [show rowDiff r = List.zipWith (fun x y => x - y) r.tail r from rfl,
    zipWith_sub_getD _ _ _ hj', getD_tail]

theorem gridDiffRows_sum (z : List (List ℚ)) (c : ℚ) (hrect : isRect z) :
    sumSqScaled (gridDiffRows z) c
      = ∑ i in Finset.range z.length,
          ∑ j in Finset.range ((z.headD []).length - 1),
            ((gq z i (j + 1) - gq z i j) / c) ^ 2 := by
  unfold sumSqScaled gridDiffRows
  rw [List.map_map, list_sum_map_eq_range_sum z []]
  refine Finset.sum_congr rfl fun i hi => ?_
  rw [Finset.mem_range] at hi
  simp only [Function.comp]
  rw [rowDiff_sum, rect_row_len z hrect i hi]
  rfl

theorem gridDiffCols_sum (z : List (List ℚ)) (c : ℚ) (hrect : isRect z) :
    sumSqScaled (gridDiffCols z) c
      = ∑ i in Finset.range (z.length - 1),
          ∑ j in Finset.range (z.headD []).length,
            ((gq z (i + 1) j - gq z i j) / c) ^ 2 := by
  unfold sumSqScaled gridDiffCols
  rw [list_sum_map_eq_range_sum
    (List.zipWith (fun r1 r0 => List.zipWith (fun b a => b - a) r1 r0) z.tail z) []]
  have hlen : (List.zipWith (fun r1 r0 => List.zipWith (fun b a => b - a) r1 r0)
      z.tail z).length = z.length - 1 := by
    simp [List.length_zipWith, List.length_tail]
  rw [hlen]
  refine Finset.sum_congr rfl fun i hi => ?_
  rw [Finset.mem_range] at hi
  have hi' : i < min z.tail.length z.length := by
    simp only [List.length_tail, lt_min_iff]
    exact ⟨hi, lt_of_lt_of_le hi (Nat.sub_le _ _)⟩
  rw [zipWith_sub_rows_getD _ _ _ hi', getD_tail_rows, list_sum_map_eq_range_sum]
  have hi1 : i + 1 < z.length := by omega
  have hi0 : i < z.length := by omega
  have hlen1 : (z.getD (i + 1) []).length = (z.headD []).length :=
    rect_row_len z hrect _ hi1
  have hlen0 : (z.getD i []).length = (z.headD []).length :=
    rect_row_len z hrect _ hi0
  rw [List.length_zipWith, hlen1, hlen0, min_self]
  refine Finset.sum_congr rfl fun j hj => ?_
  rw [Finset.mem_range] at hj
  rw [zipWith_sub_getD _ _ _ (by rw [hlen1, hlen0, min_self]; exact hj)]
  rfl

/-- C5: on a rectangular grid with both dimensions at least 2 and positive
spacings, `sdq` returns
`sqrt((Σ ((Δcol)/dx)² + Σ ((Δrow)/dy)²) / ((M-1)(N-1)))` with the single
shared normalizer `(M-1)(N-1)` applied to both directional sums; on every
other input (ragged nested list, a dimension below 2, or non-positive
spacing) it raises an error. -/
theorem sdq_formula_and_errors (z : List (List ℚ)) (dx dy : ℚ) :
    (isRect z → 0 < dx → 0 < dy → 2 ≤ z.length → 2 ≤ (z.headD []).length →
      sdq z dx dy = .ok (Real.sqrt
        ((((∑ i in Finset.range z.length,
              ∑ j in Finset.range ((z.headD []).length - 1),
                ((gq z i (j + 1) - gq z i j) / dx) ^ 2)
            + ∑ i in Finset.range (z.length - 1),
                ∑ j in Finset.range (z.headD []).length,
                  ((gq z (i + 1) j - gq z i j) / dy) ^ 2)
          / (((z.length - 1) * ((z.headD []).length - 1) : ℕ) : ℚ) : ℚ)))) ∧
    (¬ (isRect z ∧ 0 < dx ∧ 0 < dy ∧ 2 ≤ z.length ∧ 2 ≤ (z.headD []).length) →
      ∃ e, sdq z dx dy = .error e) := by
  constructor
  · intro hrect hdx hdy hM hN
    unfold sdq
    rw [if_neg (by simpa using hrect),
      if_neg (by push_neg; exact ⟨hdx, hdy⟩),
      if_neg (by push_neg; exact ⟨by omega, by omega⟩)]
    rw [gridDiffRows_sum z dx hrect, gridDiffCols_sum z dy hrect]
  · intro hbad
    unfold sdq
    by_cases h1 : isRect z
    · rw [if_neg (by simpa using h1)]
      by_cases h2 : dx ≤ 0 ∨ dy ≤ 0
      · rw [if_pos h2]; exact ⟨_, rfl⟩
      · rw [if_neg h2]
        push_neg at h2
        have h3 : z.length < 2 ∨ (z.headD []).length < 2 := by
          by_contra h3
          push_neg at h3
          exact hbad ⟨h1, h2.1, h2.2, h3.1, h3.2⟩
        rw [if_pos h3]; exact ⟨_, rfl⟩
    · rw [if_pos (by simpa using h1)]; exact ⟨_, rfl⟩

/-- C5 witness: the grid `[[0,1],[2,3]]` with unit spacings gives
`sqrt((1 + 1 + 4 + 4)/1) = sqrt 10`. -/
theorem sdq_formula_and_errors_witness :
    sdq [[(0:ℚ), 1], [2, 3]] 1 1 = .ok (Real.sqrt 10) := by
  have h := (sdq_formula_and_errors [[(0:ℚ), 1], [2, 3]] 1 1).1
    (by decide) (by norm_num) (by norm_num) (by decide) (by decide)
  rw [h]
  norm_num [Finset.sum_range_succ, gq]


/-! ## VolumeInertiaEngine: `pyshape.geometry.volume_centroid_inertia_tensor`

Tetrahedral connectivity is a `(M, 4)` integer array; the same 1-based
auto-detection and range validation as for faces applies to the flattened
4-tuples.  All arithmetic up to the eigendecomposition is rational.
`np.linalg.eigh` is an external collaborator, passed in as a function from the
assembled (rational, since float64 values are rational) tensor to an
eigenvalue triple and an eigenvector matrix. -/

abbrev MQ3 := Q3 × Q3 × Q3

def addQ3 (a b : Q3) : Q3 := (a.1 + b.1, a.2.1 + b.2.1, a.2.2 + b.2.2)

def smulQ3 (c : ℚ) (p : Q3) : Q3 := (c * p.1, c * p.2.1, c * p.2.2)

def q3Sum (l : List Q3) : Q3 := l.foldr addQ3 (0, 0, 0)

def elemsFlat (elems : List (ℤ × ℤ × ℤ × ℤ)) : List ℤ :=
  elems.foldr (fun e acc => e.1 :: e.2.1 :: e.2.2.1 :: e.2.2.2 :: acc) []

def subOneE (e : ℤ × ℤ × ℤ × ℤ) : ℤ × ℤ × ℤ × ℤ :=
  (e.1 - 1, e.2.1 - 1, e.2.2.1 - 1, e.2.2.2 - 1)

/-- 1-based auto-detection on tetra connectivity. -/
def convertElems (N : ℕ) (elems : List (ℤ × ℤ × ℤ × ℤ)) : List (ℤ × ℤ × ℤ × ℤ) :=
  if elems ≠ [] ∧ listMinD (elemsFlat elems) = 1 ∧ listMaxD (elemsFlat elems) = (N : ℤ)
  then elems.map subOneE else elems

def elemsOutOfRange (N : ℕ) (elems : List (ℤ × ℤ × ℤ × ℤ)) : Prop :=
  elems ≠ [] ∧ (listMinD (elemsFlat elems) < 0 ∨ (N : ℤ) ≤ listMaxD (elemsFlat elems))

instance (N : ℕ) (elems : List (ℤ × ℤ × ℤ × ℤ)) : Decidable (elemsOutOfRange N elems) := by
  unfold elemsOutOfRange; infer_instance

/-- The four vertices of one tetrahedron. -/
def tetVerts (nodes : List Q3) (e : ℤ × ℤ × ℤ × ℤ) : Q3 × Q3 × Q3 × Q3 :=
  (nodes.getD e.1.toNat (0, 0, 0), nodes.getD e.2.1.toNat (0, 0, 0),
   nodes.getD e.2.2.1.toNat (0, 0, 0), nodes.getD e.2.2.2.toNat (0, 0, 0))

/-- Per-tetra volume: the absolute scalar triple product
`|(a-d) . ((b-d) x (c-d))| / 6`. -/
def tetVol (nodes : List Q3) (e : ℤ × ℤ × ℤ × ℤ) : ℚ :=
  let v := tetVerts nodes e
  |dotQ3 (crossQ3 (subQ3 v.2.1 v.2.2.2) (subQ3 v.2.2.1 v.2.2.2)) (subQ3 v.1 v.2.2.2)| / 6

/-- Per-tetra inertia contributions from the Tonon-style discrete integrals,
computed from the centroid-shifted vertex coordinates: returns the tuple
`(Ixx, Iyy, Izz, Ixy, Ixz, Iyz)` for one tetra. -/
def tetInertia (nodes : List Q3) (e : ℤ × ℤ × ℤ × ℤ) : ℚ × ℚ × ℚ × ℚ × ℚ × ℚ :=
  let v := tetVerts nodes e
  let a := v.1
  let b := v.2.1
  let c := v.2.2.1
  let d := v.2.2.2
  let Sx := a.1 + b.1 + c.1 + d.1
  let Sy := a.2.1 + b.2.1 + c.2.1 + d.2.1
  let Sz := a.2.2 + b.2.2 + c.2.2 + d.2.2
  let Sxx := a.1 ^ 2 + b.1 ^ 2 + c.1 ^ 2 + d.1 ^ 2
  let Syy := a.2.1 ^ 2 + b.2.1 ^ 2 + c.2.1 ^ 2 + d.2.1 ^ 2
  let Szz := a.2.2 ^ 2 + b.2.2 ^ 2 + c.2.2 ^ 2 + d.2.2 ^ 2
  let Sxy := a.1 * a.2.1 + b.1 * b.2.1 + c.1 * c.2.1 + d.1 * d.2.1
  let Sxz := a.1 * a.2.2 + b.1 * b.2.2 + c.1 * c.2.2 + d.1 * d.2.2
  let Syz := a.2.1 * a.2.2 + b.2.1 * b.2.2 + c.2.1 * c.2.2 + d.2.1 * d.2.2
  let coef := tetVol nodes e / 20
  (coef * (Sy ^ 2 + Syy + Sz ^ 2 + Szz),
   coef * (Sx ^ 2 + Sxx + Sz ^ 2 + Szz),
   coef * (Sx ^ 2 + Sxx + Sy ^ 2 + Syy),
   coef * (Sx * Sy + Sxy),
   coef * (Sx * Sz + Sxz),
   coef * (Sy * Sz + Syz))

/-- Embedding of `volume_centroid_inertia_tensor` (geometry.py, lines 44-168).
Returns `(volume, centroid, current_inertia, inertia_diag, evecs)`. -/
def volume_centroid_inertia_tensor (eigh : MQ3 → Q3 × MQ3) (nodes : List Q3)
    (elements : List (ℤ × ℤ × ℤ × ℤ)) (calcInertia : Bool) :
    Except Err (ℚ × Q3 × MQ3 × MQ3 × MQ3) :=
  let elems := convertElems nodes.length elements
  if elemsOutOfRange nodes.length elems then .error .validationError
  else
    let volume : ℚ := (elems.map (tetVol nodes)).sum
    if volume ≤ 0 then .error .degenerateError
    else
      let centroid := smulQ3 volume⁻¹
        (q3Sum (elems.map (fun e =>
          let v := tetVerts nodes e
          smulQ3 (tetVol nodes e)
            (smulQ3 (1 / 4) (addQ3 (addQ3 v.1 v.2.1) (addQ3 v.2.2.1 v.2.2.2))))))
      if ¬ calcInertia then
        .ok (volume, centroid, ((0, 0, 0), (0, 0, 0), (0, 0, 0)),
          ((0, 0, 0), (0, 0, 0), (0, 0, 0)), ((0, 0, 0), (0, 0, 0), (0, 0, 0)))
      else
        let nodesC := nodes.map (fun p => subQ3 p centroid)
        let Ixx := (elems.map (fun e => (tetInertia nodesC e).1)).sum
        let Iyy := (elems.map (fun e => (tetInertia nodesC e).2.1)).sum
        let Izz := (elems.map (fun e => (tetInertia nodesC e).2.2.1)).sum
        let Ixy := (elems.map (fun e => (tetInertia nodesC e).2.2.2.1)).sum
        let Ixz := (elems.map (fun e => (tetInertia nodesC e).2.2.2.2.1)).sum
        let Iyz := (elems.map (fun e => (tetInertia nodesC e).2.2.2.2.2)).sum
        let current : MQ3 := ((Ixx, -Ixy, -Ixz), (-Ixy, Iyy, -Iyz), (-Ixz, -Iyz, Izz))
        let ev := eigh current
        let diag : MQ3 := ((ev.1.1, 0, 0), (0, ev.1.2.1, 0), (0, 0, ev.1.2.2))
        .ok (volume, centroid, current, diag, ev.2)

/-- C8: on the unit right tetrahedron, `volume_centroid_inertia_tensor`
returns volume `1/6` and centroid `(1/4, 1/4, 1/4)`, and the whole result is
identical for the 0-based connectivity `(0,1,2,3)` and the 1-based
connectivity `(1,2,3,4)` (which the min/max heuristic converts) — for any
eigensolver. -/
theorem volume_centroid_inertia_tetra (eigh : MQ3 → Q3 × MQ3) :
    volume_centroid_inertia_tensor eigh
        [((0:ℚ), (0:ℚ), (0:ℚ)), (1, 0, 0), (0, 1, 0), (0, 0, 1)]
        [((0:ℤ), 1, 2, 3)] true
      = volume_centroid_inertia_tensor eigh
        [((0:ℚ), (0:ℚ), (0:ℚ)), (1, 0, 0), (0, 1, 0), (0, 0, 1)]
        [((1:ℤ), 2, 3, 4)] true ∧
    (volume_centroid_inertia_tensor eigh
        [((0:ℚ), (0:ℚ), (0:ℚ)), (1, 0, 0), (0, 1, 0), (0, 0, 1)]
        [((0:ℤ), 1, 2, 3)] true).map (fun r => (r.1, r.2.1))
      = .ok (1 / 6, (1 / 4, 1 / 4, 1 / 4)) := by
  constructor
  · rfl
  · have h1 : convertElems 4 [((0:ℤ), 1, 2, 3)] = [((0:ℤ), 1, 2, 3)] := by decide
    have h2 : ¬ elemsOutOfRange 4 [((0:ℤ), 1, 2, 3)] := by decide
    have hlen : [((0:ℚ), (0:ℚ), (0:ℚ)), (1, 0, 0), (0, 1, 0), (0, 0, 1)].length = 4 := rfl
    have hvol : (List.map (tetVol [((0:ℚ), (0:ℚ), (0:ℚ)), (1, 0, 0), (0, 1, 0), (0, 0, 1)])
        [((0:ℤ), 1, 2, 3)]).sum = 1 / 6 := by
      simp [tetVol, tetVerts, subQ3, crossQ3, dotQ3]
    simp only [volume_centroid_inertia_tensor, hlen, h1, if_neg h2, hvol]
    rw [if_neg (by norm_num : ¬ ((1:ℚ) / 6 ≤ 0)), if_neg (by simp : ¬ ¬ True)]
    simp [Except.map, smulQ3, addQ3, q3Sum, tetVerts, tetVol, subQ3, crossQ3, dotQ3]

/-! ## MeshLoader vertex deduplication: `pyshape.io._unique_rows_tol`

`np.round(a, decimals)` rounds half to even after scaling by `10^decimals`;
`np.unique(view, return_index=True, return_inverse=True)` on the structured
row view returns the distinct rounded rows in ascending lexicographic order,
the index of each one's first occurrence in the stream, and for every stream
position the index of its row in that sorted list.  `nodes = a[idx]` then
carries the original (unrounded) coordinates of those first occurrences. -/

/-- Round half to even (the rounding mode of `np.round` / IEEE `rint`). -/
def roundHalfEven (x : ℚ) : ℤ :=
  let f := ⌊x⌋
  let r := x - f
  if r < 1 / 2 then f
  else if 1 / 2 < r then f + 1
  else if 2 ∣ f then f else f + 1

/-- Models `np.round(x, decimals=d)`: scale, round half to even, unscale. -/
def roundDec (d : ℕ) (x : ℚ) : ℚ := (roundHalfEven (x * 10 ^ d) : ℚ) / 10 ^ d

def roundPt (d : ℕ) (p : Q3) : Q3 := (roundDec d p.1, roundDec d p.2.1, roundDec d p.2.2)

/-- Lexicographic order on rounded rows: the comparison used by `np.unique` on
the structured (three-field) row view. -/
def ptLE (p q : Q3) : Prop :=
  p.1 < q.1 ∨ (p.1 = q.1 ∧ (p.2.1 < q.2.1 ∨ (p.2.1 = q.2.1 ∧ p.2.2 ≤ q.2.2)))

instance : DecidableRel ptLE := fun p q => by unfold ptLE; infer_instance

instance : IsTotal Q3 ptLE where
  total p q := by
    unfold ptLE
    rcases lt_trichotomy p.1 q.1 with h1 | h1 | h1
    · exact Or.inl (Or.inl h1)
    · rcases lt_trichotomy p.2.1 q.2.1 with h2 | h2 | h2
      · exact Or.inl (Or.inr ⟨h1, Or.inl h2⟩)
      · rcases le_total p.2.2 q.2.2 with h3 | h3
        · exact Or.inl (Or.inr ⟨h1, Or.inr ⟨h2, h3⟩⟩)
        · exact Or.inr (Or.inr ⟨h1.symm, Or.inr ⟨h2.symm, h3⟩⟩)
      · exact Or.inr (Or.inr ⟨h1.symm, Or.inl h2⟩)
    · exact Or.inr (Or.inl h1)

instance : IsTrans Q3 ptLE where
  trans p q r hpq hqr := by
    unfold ptLE at hpq hqr ⊢
    rcases hpq with h1 | ⟨e1, h1⟩
    · rcases hqr with h2 | ⟨e2, h2⟩
      · exact Or.inl (h1.trans h2)
      · exact Or.inl (e2 ▸ h1)
    · rcases hqr with h2 | ⟨e2, h2⟩
      · exact Or.inl (e1 ▸ h2)
      · refine Or.inr ⟨e1.trans e2, ?_⟩
        rcases h1 with h1 | ⟨f1, h1⟩
        · rcases h2 with h2 | ⟨f2, h2⟩
          · exact Or.inl (h1.trans h2)
          · exact Or.inl (f2 ▸ h1)
        · rcases h2 with h2 | ⟨f2, h2⟩
          · exact Or.inl (f1 ▸ h2)
          · exact Or.inr ⟨f1.trans f2, h1.trans h2⟩

/-- The sorted distinct rows produced by `np.unique` on the rounded rows. -/
def uniqueSorted (l : List Q3) : List Q3 := List.insertionSort ptLE l.dedup

/-- Index of the first occurrence of `a` in `l` (`l.length` when absent):
the `return_index` / `return_inverse` lookups of `np.unique`. -/
def idxOf (a : Q3) : List Q3 → ℕ
  | [] => 0
  | x :: xs => if x = a then 0 else idxOf a xs + 1

/-- Embedding of `_unique_rows_tol` (io.py, lines 16-24): returns
`(unique_rows, inverse_idx)` where `unique_rows` holds, for each distinct
rounded row in sorted order, the original coordinates at that row's first
occurrence, and `inverse_idx[i]` is the position of stream row `i`'s rounded
value in the sorted distinct list. -/
def _unique_rows_tol (d : ℕ) (points : List Q3) : List Q3 × List ℕ :=
  let ar := points.map (roundPt d)
  let uniq := uniqueSorted ar
  let nodes := uniq.map (fun u => points.getD (idxOf u ar) (0, 0, 0))
  let inv := ar.map (fun r => idxOf r uniq)
  (nodes, inv)

/-- Models `inv.reshape(-1, 3)` on the flat inverse index of a `3T`-vertex stream. -/
def chunk3 : List ℕ → List (ℕ × ℕ × ℕ)
  | a :: b :: c :: rest => (a, b, c) :: chunk3 rest
  | _ => []

/-- The merge branch of `load_stl` (io.py, lines 123-126): deduplicate the raw
`3T` vertex stream and reshape the inverse index into `(T, 3)` faces. -/
def mergeVertices (d : ℕ) (verts : List Q3) : List Q3 × List (ℕ × ℕ × ℕ) :=
  ((_unique_rows_tol d verts).1, chunk3 (_unique_rows_tol d verts).2)

theorem roundDec_intCast (d : ℕ) (k : ℤ) : roundDec d (k : ℚ) = k := by
  unfold roundDec roundHalfEven
  have hcast : ((k : ℚ) * 10 ^ d) = ((k * 10 ^ d : ℤ) : ℚ) := by push_cast; ring
  rw [hcast]
  rw [Int.floor_intCast]
  rw [if_pos (by push_cast; norm_num)]
  push_cast
  rw [mul_div_assoc, div_self (by positivity), mul_one]

theorem idxOf_lt_length {a : Q3} {l : List Q3} (h : a ∈ l) : idxOf a l < l.length := by
  induction l with
  | nil => cases h
  | cons x xs ih =>
      unfold idxOf
      by_cases hx : x = a
      · simp [hx]
      · rw [if_neg hx]
        have : a ∈ xs := by
          rcases List.mem_cons.mp h with h1 | h1
          · exact absurd h1.symm hx
          · exact h1
        simpa using ih this

theorem getD_idxOf {a : Q3} {l : List Q3} (h : a ∈ l) (dflt : Q3) :
    l.getD (idxOf a l) dflt = a := by
  induction l with
  | nil => cases h
  | cons x xs ih =>
      unfold idxOf
      by_cases hx : x = a
      · simp [hx]
      · rw [if_neg hx]
        have : a ∈ xs := by
          rcases List.mem_cons.mp h with h1 | h1
          · exact absurd h1.symm hx
          · exact h1
        simpa using ih this

theorem getD_ne_of_lt_idxOf {a : Q3} {l : List Q3} {i : ℕ} (h : i < idxOf a l)
    (dflt : Q3) : l.getD i dflt ≠ a := by
  induction l generalizing i with
  | nil => simp [idxOf] at h
  | cons x xs ih =>
      unfold idxOf at h
      by_cases hx : x = a
      · rw [if_pos hx] at h
        omega
      · rw [if_neg hx] at h
        cases i with
        | zero => simpa using hx
        | succ i => simpa using ih (by omega)

theorem mem_uniqueSorted {l : List Q3} {u : Q3} : u ∈ uniqueSorted l ↔ u ∈ l := by
  unfold uniqueSorted
  rw [(List.perm_insertionSort ptLE l.dedup).mem_iff, List.mem_dedup]

theorem uniqueSorted_nodup (l : List Q3) : (uniqueSorted l).Nodup :=
  (List.perm_insertionSort ptLE l.dedup).symm.nodup (List.nodup_dedup l)

theorem roundPt_getD_map (d : ℕ) (points : List Q3) (i : ℕ) (hi : i < points.length) :
    roundPt d (points.getD i (0, 0, 0)) = (points.map (roundPt d)).getD i (0, 0, 0) := by
  rw [List.getD_eq_getElem _ _ hi,
    List.getD_eq_getElem _ _ (by simpa using hi), List.getElem_map]

theorem roundPt_getD_idxOf (d : ℕ) (points : List Q3) (u : Q3)
    (hu : u ∈ points.map (roundPt d)) :
    roundPt d (points.getD (idxOf u (points.map (roundPt d))) (0, 0, 0)) = u := by
  have hlt : idxOf u (points.map (roundPt d)) < points.length := by
    simpa using idxOf_lt_length hu
  rw [roundPt_getD_map d points _ hlt]
  exact getD_idxOf hu _

theorem nodes_map_roundPt (d : ℕ) (points : List Q3) :
    ((_unique_rows_tol d points).1).map (roundPt d)
      = uniqueSorted (points.map (roundPt d)) := by
  unfold _unique_rows_tol
  simp only [List.map_map]
  have h : ∀ u ∈ uniqueSorted (points.map (roundPt d)),
      (roundPt d ∘ fun u => points.getD (idxOf u (points.map (roundPt d))) (0, 0, 0)) u
        = id u := by
    intro u hu
    simp only [Function.comp, id]
    exact roundPt_getD_idxOf d points u (mem_uniqueSorted.mp hu)
  rw [List.map_congr_left h, List.map_id]

theorem unique_rows_nodes_length (d : ℕ) (points : List Q3) :
    (_unique_rows_tol d points).1.length
      = (uniqueSorted (points.map (roundPt d))).length := by
  unfold _unique_rows_tol
  simp

theorem unique_rows_first_occurrence (d : ℕ) (points : List Q3) (j : ℕ)
    (hj : j < (_unique_rows_tol d points).1.length) :
    ∃ i, i < points.length ∧
      (_unique_rows_tol d points).1.getD j (0, 0, 0) = points.getD i (0, 0, 0) ∧
      roundPt d (points.getD i (0, 0, 0))
        = roundPt d ((_unique_rows_tol d points).1.getD j (0, 0, 0)) ∧
      ∀ i', i' < i → roundPt d (points.getD i' (0, 0, 0))
        ≠ roundPt d ((_unique_rows_tol d points).1.getD j (0, 0, 0)) := by
  have hjq : j < (uniqueSorted (points.map (roundPt d))).length := by
    rw [← unique_rows_nodes_length d points]; exact hj
  set ar := points.map (roundPt d) with har
  set u := (uniqueSorted ar).getD j (0, 0, 0) with hu
  have humem : u ∈ uniqueSorted ar := by
    rw [hu, List.getD_eq_getElem _ _ hjq]
    exact List.getElem_mem hjq
  have huar : u ∈ ar := mem_uniqueSorted.mp humem
  have hilt : idxOf u ar < points.length := by
    have := idxOf_lt_length huar
    simpa [har] using this
  have hnodes : (_unique_rows_tol d points).1.getD j (0, 0, 0)
      = points.getD (idxOf u ar) (0, 0, 0) := by
    unfold _unique_rows_tol
    simp only
    rw [List.getD_eq_getElem _ _ (by simpa [har] using hjq), List.getElem_map,
      ← List.getD_eq_getElem _ (0, 0, 0) hjq]
  have hround : roundPt d (points.getD (idxOf u ar) (0, 0, 0)) = u := by
    rw [har] at huar ⊢
    exact roundPt_getD_idxOf d points u huar
  refine ⟨idxOf u ar, hilt, hnodes, ?_, ?_⟩
  · rw [hnodes]
  · intro i' hi'
    rw [hnodes, hround]
    have hi'p : i' < points.length := lt_trans hi' hilt
    rw [roundPt_getD_map d points i' hi'p]
    have := getD_ne_of_lt_idxOf (a := u) (l := ar) (i := i') (by simpa using hi') (0, 0, 0)
    simpa [har] using this

theorem unique_rows_inverse_spec (d : ℕ) (points : List Q3) (i : ℕ)
    (hi : i < points.length) :
    (_unique_rows_tol d points).2.getD i 0 < (_unique_rows_tol d points).1.length ∧
    roundPt d ((_unique_rows_tol d points).1.getD
        ((_unique_rows_tol d points).2.getD i 0) (0, 0, 0))
      = roundPt d (points.getD i (0, 0, 0)) := by
  set ar := points.map (roundPt d) with har
  have hiar : i < ar.length := by simpa [har] using hi
  have hinv : (_unique_rows_tol d points).2.getD i 0
      = idxOf (ar.getD i (0, 0, 0)) (uniqueSorted ar) := by
    unfold _unique_rows_tol
    simp only
    rw [← har, List.getD_eq_getElem _ _ (by simpa using hiar), List.getElem_map,
      ← List.getD_eq_getElem _ (0, 0, 0) hiar]
  have hmem : ar.getD i (0, 0, 0) ∈ ar := by
    rw [List.getD_eq_getElem _ _ hiar]
    exact List.getElem_mem hiar
  have hmemu : ar.getD i (0, 0, 0) ∈ uniqueSorted ar := mem_uniqueSorted.mpr hmem
  have hjlt : idxOf (ar.getD i (0, 0, 0)) (uniqueSorted ar)
      < (_unique_rows_tol d points).1.length := by
    rw [unique_rows_nodes_length d points, ← har]
    exact idxOf_lt_length hmemu
  constructor
  · rw [hinv]; exact hjlt
  · rw [hinv]
    have hjlt' : idxOf (ar.getD i (0, 0, 0)) (uniqueSorted ar)
        < (_unique_rows_tol d points).1.length := hjlt
    rw [roundPt_getD_map d ((_unique_rows_tol d points).1) _ hjlt', nodes_map_roundPt,
      ← har, getD_idxOf hmemu, roundPt_getD_map d points i hi]

theorem chunk3_getD (l : List ℕ) (t : ℕ) (h : 3 * t + 2 < l.length) :
    (chunk3 l).getD t (0, 0, 0)
      = (l.getD (3 * t) 0, l.getD (3 * t + 1) 0, l.getD (3 * t + 2) 0) := by
  induction t generalizing l with
  | zero =>
      match l, h with
      | a :: b :: c :: rest, _ => rfl
  | succ t ih =>
      match l, h with
      | a :: b :: c :: rest, h =>
          have h' : 3 * t + 2 < rest.length := by
            simp only [List.length_cons] at h
            omega
          have : (chunk3 (a :: b :: c :: rest)).getD (t + 1) (0, 0, 0)
              = (chunk3 rest).getD t (0, 0, 0) := rfl
          rw [this, ih rest h']
          have g0 : (a :: b :: c :: rest).getD (3 * (t + 1)) 0 = rest.getD (3 * t) 0 := by
            rw [show 3 * (t + 1) = 3 * t + 1 + 1 + 1 by ring]
            simp [List.getD_cons_succ]
          have g1 : (a :: b :: c :: rest).getD (3 * (t + 1) + 1) 0
              = rest.getD (3 * t + 1) 0 := by
            rw [show 3 * (t + 1) + 1 = (3 * t + 1) + 1 + 1 + 1 by ring]
            simp [List.getD_cons_succ]
          have g2 : (a :: b :: c :: rest).getD (3 * (t + 1) + 2) 0
              = rest.getD (3 * t + 2) 0 := by
            rw [show 3 * (t + 1) + 2 = (3 * t + 2) + 1 + 1 + 1 by ring]
            simp [List.getD_cons_succ]
          rw [g0, g1, g2]

/-- C2 (amended): with merging enabled, the canonical node list holds the
distinct rounded points in ascending lexicographic order — the deterministic
order of `np.unique`, not first-seen stream order — each carrying the original
coordinates of that rounded value's first occurrence in the stream; the
inverse index maps every stream position to a canonical node with the same
rounded coordinates, and the reshaped `(T, 3)` face list remaps each triangle
vertex to such a canonical node (the first-seen representative of its rounded
value, which coincides with that triangle's own coordinates exactly when no
distinct earlier vertex rounds to the same value). -/
theorem unique_rows_merge_amended (d : ℕ) (points : List Q3) :
    (((_unique_rows_tol d points).1).map (roundPt d)).Sorted ptLE ∧
    (((_unique_rows_tol d points).1).map (roundPt d)).Nodup ∧
    (((_unique_rows_tol d points).1).map (roundPt d)).Perm
      ((points.map (roundPt d)).dedup) ∧
    (∀ j, j < (_unique_rows_tol d points).1.length → ∃ i, i < points.length ∧
      (_unique_rows_tol d points).1.getD j (0, 0, 0) = points.getD i (0, 0, 0) ∧
      roundPt d (points.getD i (0, 0, 0))
        = roundPt d ((_unique_rows_tol d points).1.getD j (0, 0, 0)) ∧
      ∀ i', i' < i → roundPt d (points.getD i' (0, 0, 0))
        ≠ roundPt d ((_unique_rows_tol d points).1.getD j (0, 0, 0))) ∧
    (_unique_rows_tol d points).2.length = points.length ∧
    (∀ i, i < points.length →
      (_unique_rows_tol d points).2.getD i 0 < (_unique_rows_tol d points).1.length ∧
      roundPt d ((_unique_rows_tol d points).1.getD
          ((_unique_rows_tol d points).2.getD i 0) (0, 0, 0))
        = roundPt d (points.getD i (0, 0, 0))) ∧
    (∀ t, 3 * t + 2 < points.length →
      roundPt d ((mergeVertices d points).1.getD
          ((mergeVertices d points).2.getD t (0, 0, 0)).1 (0, 0, 0))
        = roundPt d (points.getD (3 * t) (0, 0, 0)) ∧
      roundPt d ((mergeVertices d points).1.getD
          ((mergeVertices d points).2.getD t (0, 0, 0)).2.1 (0, 0, 0))
        = roundPt d (points.getD (3 * t + 1) (0, 0, 0)) ∧
      roundPt d ((mergeVertices d points).1.getD
          ((mergeVertices d points).2.getD t (0, 0, 0)).2.2 (0, 0, 0))
        = roundPt d (points.getD (3 * t + 2) (0, 0, 0))) := by
  have hinvlen : (_unique_rows_tol d points).2.length = points.length := by
    unfold _unique_rows_tol
    simp
  refine ⟨?_, ?_, ?_, unique_rows_first_occurrence d points, hinvlen,
    unique_rows_inverse_spec d points, ?_⟩
  · rw [nodes_map_roundPt]
    exact List.sorted_insertionSort ptLE _
  · rw [nodes_map_roundPt]
    exact uniqueSorted_nodup _
  · rw [nodes_map_roundPt]
    exact List.perm_insertionSort ptLE _
  · intro t ht
    have hc : (mergeVertices d points).2.getD t (0, 0, 0)
        = ((_unique_rows_tol d points).2.getD (3 * t) 0,
           (_unique_rows_tol d points).2.getD (3 * t + 1) 0,
           (_unique_rows_tol d points).2.getD (3 * t + 2) 0) := by
      unfold mergeVertices
      exact chunk3_getD _ t (by rw [hinvlen]; exact ht)
    have hn : (mergeVertices d points).1 = (_unique_rows_tol d points).1 := rfl
    rw [hc, hn]
    exact ⟨(unique_rows_inverse_spec d points (3 * t) (by omega)).2,
      (unique_rows_inverse_spec d points (3 * t + 1) (by omega)).2,
      (unique_rows_inverse_spec d points (3 * t + 2) (by omega)).2⟩

theorem roundPt_intCast (d : ℕ) (a b c : ℤ) :
    roundPt d ((a : ℚ), (b : ℚ), (c : ℚ)) = ((a : ℚ), (b : ℚ), (c : ℚ)) := by
  simp [roundPt, roundDec_intCast]

theorem roundPt_one_zero_zero (d : ℕ) :
    roundPt d ((1:ℚ), (0:ℚ), (0:ℚ)) = ((1:ℚ), (0:ℚ), (0:ℚ)) := by
  have h := roundPt_intCast d 1 0 0
  push_cast at h
  exact h

theorem roundPt_zero_zero_zero (d : ℕ) :
    roundPt d ((0:ℚ), (0:ℚ), (0:ℚ)) = ((0:ℚ), (0:ℚ), (0:ℚ)) := by
  have h := roundPt_intCast d 0 0 0
  push_cast at h
  exact h

/-- C2 (counterexample): on the raw vertex stream `[(1,0,0), (0,0,0)]` (all
coordinates exact at any rounding precision), first-seen order would put
`(1,0,0)` first, but the canonical node list produced by `np.unique` is
lexicographically sorted: `[(0,0,0), (1,0,0)]`. -/
theorem unique_rows_counterexample :
    (_unique_rows_tol 12 [((1:ℚ), (0:ℚ), (0:ℚ)), ((0:ℚ), (0:ℚ), (0:ℚ))]).1
      = [((0:ℚ), (0:ℚ), (0:ℚ)), ((1:ℚ), (0:ℚ), (0:ℚ))] ∧
    ([((0:ℚ), (0:ℚ), (0:ℚ)), ((1:ℚ), (0:ℚ), (0:ℚ))] : List Q3)
      ≠ [((1:ℚ), (0:ℚ), (0:ℚ)), ((0:ℚ), (0:ℚ), (0:ℚ))] := by
  have har : [((1:ℚ), (0:ℚ), (0:ℚ)), ((0:ℚ), (0:ℚ), (0:ℚ))].map (roundPt 12)
      = [((1:ℚ), (0:ℚ), (0:ℚ)), ((0:ℚ), (0:ℚ), (0:ℚ))] := by
    rw [List.map_cons, List.map_cons, List.map_nil,
      roundPt_one_zero_zero, roundPt_zero_zero_zero]
  constructor
  · unfold _unique_rows_tol
    rw [har]
    decide
  · decide

/-- C2 witness: concrete three-vertex stream (one triangle, two distinct
points); the amended theorem instantiates with its bounds discharged at
`j = 0`, `i = 0` and `t = 0`. -/
theorem unique_rows_merge_amended_witness :
    (((_unique_rows_tol 12 [((1:ℚ), (0:ℚ), (0:ℚ)), ((0:ℚ), (0:ℚ), (0:ℚ)),
        ((1:ℚ), (0:ℚ), (0:ℚ))]).1).map (roundPt 12)).Sorted ptLE ∧
    (∃ i, i < 3 ∧
      (_unique_rows_tol 12 [((1:ℚ), (0:ℚ), (0:ℚ)), ((0:ℚ), (0:ℚ), (0:ℚ)),
        ((1:ℚ), (0:ℚ), (0:ℚ))]).1.getD 0 (0, 0, 0)
        = [((1:ℚ), (0:ℚ), (0:ℚ)), ((0:ℚ), (0:ℚ), (0:ℚ)),
           ((1:ℚ), (0:ℚ), (0:ℚ))].getD i (0, 0, 0)) ∧
    roundPt 12 ((mergeVertices 12 [((1:ℚ), (0:ℚ), (0:ℚ)), ((0:ℚ), (0:ℚ), (0:ℚ)),
        ((1:ℚ), (0:ℚ), (0:ℚ))]).1.getD
        ((mergeVertices 12 [((1:ℚ), (0:ℚ), (0:ℚ)), ((0:ℚ), (0:ℚ), (0:ℚ)),
          ((1:ℚ), (0:ℚ), (0:ℚ))]).2.getD 0 (0, 0, 0)).1 (0, 0, 0))
      = roundPt 12 ([((1:ℚ), (0:ℚ), (0:ℚ)), ((0:ℚ), (0:ℚ), (0:ℚ)),
          ((1:ℚ), (0:ℚ), (0:ℚ))].getD 0 (0, 0, 0)) := by
  have har : [((1:ℚ), (0:ℚ), (0:ℚ)), ((0:ℚ), (0:ℚ), (0:ℚ)),
      ((1:ℚ), (0:ℚ), (0:ℚ))].map (roundPt 12)
      = [((1:ℚ), (0:ℚ), (0:ℚ)), ((0:ℚ), (0:ℚ), (0:ℚ)), ((1:ℚ), (0:ℚ), (0:ℚ))] := by
    rw [List.map_cons, List.map_cons, List.map_cons, List.map_nil,
      roundPt_one_zero_zero, roundPt_zero_zero_zero]
  have hlen : (_unique_rows_tol 12 [((1:ℚ), (0:ℚ), (0:ℚ)), ((0:ℚ), (0:ℚ), (0:ℚ)),
      ((1:ℚ), (0:ℚ), (0:ℚ))]).1.length = 2 := by
    unfold _unique_rows_tol
    rw [har]
    decide
  have h := unique_rows_merge_amended 12 [((1:ℚ), (0:ℚ), (0:ℚ)), ((0:ℚ), (0:ℚ), (0:ℚ)),
      ((1:ℚ), (0:ℚ), (0:ℚ))]
  refine ⟨h.1, ?_, (h.2.2.2.2.2.2 0 (by norm_num)).1⟩
  obtain ⟨i, hi, heq, -, -⟩ := h.2.2.2.1 0 (by rw [hlen]; norm_num)
  exact ⟨i, by simpa using hi, heq⟩

/-! ## OrientationTensor: `pyshape.form.surface_orientation_tensor`

Validation and 1-based conversion are identical to `surface_area`.  Per
triangle the source takes `v = (B-A) × (C-B)`, `area = ‖v‖/2`, and the unit
normal `v/‖v‖` when `‖v‖ > 0`, else the zero vector.  The orientation tensor
is `f = (1/total_area) Σ area_k n_k n_kᵀ`.  `np.linalg.eig` is an external
collaborator passed as a function argument; theorems that need its
correctness on the symmetric tensor state the contract (`f·V = V·diag(λ)`,
`Vᵀ·V = 1`) as a hypothesis.  The source sorts the eigenvalues descending via
`np.argsort(vals)[::-1]` (a stable ascending argsort, reversed) and reorders
the eigenvector columns accordingly. -/

abbrev Vec3 := Fin 3 → ℝ

abbrev Mat3 := Matrix (Fin 3) (Fin 3) ℝ

/-- Cast a rational coordinate triple to a real vector. -/
noncomputable def castQ3 (p : Q3) : Vec3 := ![(p.1 : ℝ), (p.2.1 : ℝ), (p.2.2 : ℝ)]

/-- The per-triangle cross vector `v = (B - A) × (C - B)`. -/
def sotVec (nodes : List Q3) (f : ℤ × ℤ × ℤ) : Q3 :=
  let A := nodes.getD f.1.toNat (0, 0, 0)
  let B := nodes.getD f.2.1.toNat (0, 0, 0)
  let C := nodes.getD f.2.2.toNat (0, 0, 0)
  crossQ3 (subQ3 B A) (subQ3 C B)

/-- The per-triangle area `0.5 * ‖v‖`. -/
noncomputable def sotArea (nodes : List Q3) (f : ℤ × ℤ × ℤ) : ℝ :=
  normQ3 (sotVec nodes f) / 2

/-- The per-triangle unit normal, zero for degenerate (zero-norm) triangles:
`np.divide(v, norms, out=zeros, where=norms > 0)`. -/
noncomputable def sotNormal (nodes : List Q3) (f : ℤ × ℤ × ℤ) : Vec3 :=
  if 0 < normQ3 (sotVec nodes f)
  then (normQ3 (sotVec nodes f))⁻¹ • castQ3 (sotVec nodes f)
  else 0

/-- Models `total_area = areas.sum()`. -/
noncomputable def totalArea (nodes : List Q3) (faces : List (ℤ × ℤ × ℤ)) : ℝ :=
  ∑ k in Finset.range faces.length, sotArea nodes (faces.getD k (0, 0, 0))

/-- The orientation tensor `f = (1/total_area) Σ area_k (n_k ⊗ n_k)`. -/
noncomputable def fTensor (nodes : List Q3) (faces : List (ℤ × ℤ × ℤ)) : Mat3 :=
  (totalArea nodes faces)⁻¹ •
    ∑ k in Finset.range faces.length,
      sotArea nodes (faces.getD k (0, 0, 0)) •
        Matrix.vecMulVec (sotNormal nodes (faces.getD k (0, 0, 0)))
          (sotNormal nodes (faces.getD k (0, 0, 0)))

/-- Models `np.argsort(vals)[::-1]`: stable ascending argsort of the three
eigenvalues, reversed. -/
noncomputable def argsortDesc (v : Vec3) : List (Fin 3) :=
  (List.insertionSort (fun i j => v i ≤ v j) (List.finRange 3)).reverse

/-- Models `vals[order]` for the descending order. -/
noncomputable def sortedVals (v : Vec3) : List ℝ := (argsortDesc v).map v

/-- Models `vecs[:, order]`: eigenvector columns reordered to match. -/
noncomputable def permuteCols (m : Mat3) (order : List (Fin 3)) : Mat3 :=
  Matrix.of fun i j => m i (order.getD j 0)

/-- Embedding of `surface_orientation_tensor` (form.py, lines 27-96).
Returns `(C, F, R, (f1, f2, f3), eigen_vectors)`. -/
noncomputable def surface_orientation_tensor (eig : Mat3 → Vec3 × Mat3)
    (nodes : List Q3) (faces : List (ℤ × ℤ × ℤ)) :
    Except Err (ℝ × ℝ × ℝ × (ℝ × ℝ × ℝ) × Mat3) :=
  let faces' := convertFaces nodes.length faces
  if facesOutOfRange nodes.length faces' then .error .validationError
  else if totalArea nodes faces' ≤ 0 then .error .degenerateError
  else
    let p := eig (fTensor nodes faces')
    let evs := sortedVals p.1
    let f1 := evs.getD 0 0
    let f2 := evs.getD 1 0
    let f3 := evs.getD 2 0
    if f1 ≤ 0 then .error .degenerateError
    else .ok (f3 / f1, (f1 - f2) / f1, (f2 - f3) / f1, (f1, f2, f3),
      permuteCols p.2 (argsortDesc p.1))

theorem dotQ3_self_nonneg (v : Q3) : 0 ≤ dotQ3 v v := by
  unfold dotQ3
  have h1 := mul_self_nonneg v.1
  have h2 := mul_self_nonneg v.2.1
  have h3 := mul_self_nonneg v.2.2
  linarith

theorem normQ3_nonneg (v : Q3) : 0 ≤ normQ3 v := Real.sqrt_nonneg _

theorem normQ3_sq (v : Q3) : normQ3 v ^ 2 = ((dotQ3 v v : ℚ) : ℝ) :=
  Real.sq_sqrt (by exact_mod_cast dotQ3_self_nonneg v)

theorem sotNormal_degenerate (nodes : List Q3) (f : ℤ × ℤ × ℤ)
    (h : normQ3 (sotVec nodes f) = 0) :
    sotNormal nodes f = 0 ∧ sotArea nodes f = 0 ∧
    sotArea nodes f • Matrix.vecMulVec (sotNormal nodes f) (sotNormal nodes f) = 0 := by
  have hnot : ¬ 0 < normQ3 (sotVec nodes f) := by rw [h]; exact lt_irrefl 0
  have hn : sotNormal nodes f = 0 := by rw [sotNormal, if_neg hnot]
  have ha : sotArea nodes f = 0 := by rw [sotArea, h]; norm_num
  exact ⟨hn, ha, by rw [ha, zero_smul]⟩

theorem trace_orientation_term (nodes : List Q3) (f : ℤ × ℤ × ℤ) :
    (sotArea nodes f •
      Matrix.vecMulVec (sotNormal nodes f) (sotNormal nodes f)).trace
      = sotArea nodes f := by
  rw [Matrix.trace_smul]
  have htr : (Matrix.vecMulVec (sotNormal nodes f) (sotNormal nodes f)).trace
      = ∑ i : Fin 3, sotNormal nodes f i * sotNormal nodes f i := by
    simp [Matrix.trace, Matrix.vecMulVec, Matrix.diag]
  rw [htr]
  by_cases h : 0 < normQ3 (sotVec nodes f)
  · have hn : sotNormal nodes f
        = (normQ3 (sotVec nodes f))⁻¹ • castQ3 (sotVec nodes f) := by
      rw [sotNormal, if_pos h]
    have hsum : ∑ i : Fin 3, sotNormal nodes f i * sotNormal nodes f i
        = (normQ3 (sotVec nodes f))⁻¹ ^ 2
          * ((dotQ3 (sotVec nodes f) (sotVec nodes f) : ℚ) : ℝ) := by
      rw [hn]
      simp only [Fin.sum_univ_three, Pi.smul_apply, smul_eq_mul, castQ3, dotQ3]
      push_cast
      simp [Matrix.cons_val_zero, Matrix.cons_val_one, Matrix.head_cons]
      ring
    rw [hsum, ← normQ3_sq, inv_pow, inv_mul_cancel₀ (pow_ne_zero 2 (ne_of_gt h))]
    rw [smul_eq_mul, mul_one]
  · have h0 : normQ3 (sotVec nodes f) = 0 :=
      le_antisymm (not_lt.mp h) (normQ3_nonneg _)
    obtain ⟨hn, ha, -⟩ := sotNormal_degenerate nodes f h0
    simp [hn, ha]

theorem trace_fTensor (nodes : List Q3) (faces : List (ℤ × ℤ × ℤ))
    (h : 0 < totalArea nodes faces) : (fTensor nodes faces).trace = 1 := by
  unfold fTensor
  rw [Matrix.trace_smul, Matrix.trace_sum]
  have hsum : ∑ k in Finset.range faces.length,
      (sotArea nodes (faces.getD k (0, 0, 0)) •
        Matrix.vecMulVec (sotNormal nodes (faces.getD k (0, 0, 0)))
          (sotNormal nodes (faces.getD k (0, 0, 0)))).trace
      = totalArea nodes faces :=
    Finset.sum_congr rfl fun k _ => trace_orientation_term nodes _
  rw [hsum, smul_eq_mul, inv_mul_cancel₀ (ne_of_gt h)]

theorem eig_sum_eq_trace (f : Mat3) (vals : Vec3) (V : Mat3)
    (hE : f * V = V * Matrix.diagonal vals)
    (hV : Matrix.transpose V * V = 1) :
    vals 0 + vals 1 + vals 2 = f.trace := by
  have hV' : V * Matrix.transpose V = 1 := Matrix.mul_eq_one_comm.mp hV
  have hf : f = V * Matrix.diagonal vals * Matrix.transpose V := by
    calc f = f * (V * Matrix.transpose V) := by rw [hV', Matrix.mul_one]
    _ = f * V * Matrix.transpose V := by rw [Matrix.mul_assoc]
    _ = V * Matrix.diagonal vals * Matrix.transpose V := by rw [hE]
  rw [hf, Matrix.mul_assoc, Matrix.trace_mul_comm, Matrix.mul_assoc, hV,
    Matrix.mul_one, Matrix.trace_diagonal, Fin.sum_univ_three]

theorem sortedVals_spec (v : Vec3) :
    ∃ a b c, sortedVals v = [a, b, c] ∧ b ≤ a ∧ c ≤ b ∧
      a + b + c = v 0 + v 1 + v 2 := by
  haveI hTot : IsTotal (Fin 3) (fun i j => v i ≤ v j) :=
    ⟨fun a b => le_total (v a) (v b)⟩
  haveI hTrans : IsTrans (Fin 3) (fun i j => v i ≤ v j) :=
    ⟨fun _ _ _ h1 h2 => le_trans h1 h2⟩
  have hperm : (argsortDesc v).Perm (List.finRange 3) :=
    (List.reverse_perm _).trans (List.perm_insertionSort _ _)
  have hlen : (sortedVals v).length = 3 := by
    rw [sortedVals, List.length_map, hperm.length_eq, List.length_finRange]
  obtain ⟨a, b, c, habc⟩ := List.length_eq_three.mp hlen
  have hpair : (sortedVals v).Pairwise (fun x y => y ≤ x) := by
    have hs := List.sorted_insertionSort (fun i j => v i ≤ v j) (List.finRange 3)
    have hrev : ((List.insertionSort (fun i j => v i ≤ v j)
        (List.finRange 3)).reverse).Pairwise (fun i j => v j ≤ v i) :=
      List.pairwise_reverse.mpr hs
    exact List.pairwise_map.mpr hrev
  have hsum : (sortedVals v).sum = v 0 + v 1 + v 2 := by
    have hmp : (sortedVals v).Perm ((List.finRange 3).map v) := hperm.map v
    rw [hmp.sum_eq, ← Fin.sum_univ_def, Fin.sum_univ_three]
  rw [habc] at hpair hsum
  rw [List.pairwise_cons, List.pairwise_cons] at hpair
  have hsum' : a + (b + c) = v 0 + v 1 + v 2 := by simpa using hsum
  refine ⟨a, b, c, habc, hpair.1 b (List.mem_cons_self _ _),
    hpair.2.1 c (List.mem_cons_self _ _), by linarith⟩

/-- C6: for every successful call of `surface_orientation_tensor` whose
eigensolver returned genuine eigenpairs of the (symmetric) orientation tensor
(`f·V = V·diag(λ)` with orthonormal columns `Vᵀ·V = 1`), the returned
eigenvalue triple is in descending order and sums to `1` (the trace of the
normalized tensor), and the indices satisfy `C = f3/f1`, `F = (f1-f2)/f1`,
`R = (f2-f3)/f1`, hence `F + R = 1 - C`. -/
theorem surface_orientation_eigentriple (nodes : List Q3)
    (faces : List (ℤ × ℤ × ℤ)) (eig : Mat3 → Vec3 × Mat3)
    (C F R f1 f2 f3 : ℝ) (vecs : Mat3)
    (heigE : fTensor nodes (convertFaces nodes.length faces)
        * (eig (fTensor nodes (convertFaces nodes.length faces))).2
      = (eig (fTensor nodes (convertFaces nodes.length faces))).2
        * Matrix.diagonal (eig (fTensor nodes (convertFaces nodes.length faces))).1)
    (heigV : Matrix.transpose (eig (fTensor nodes (convertFaces nodes.length faces))).2
        * (eig (fTensor nodes (convertFaces nodes.length faces))).2 = 1)
    (hok : surface_orientation_tensor eig nodes faces
      = .ok (C, F, R, (f1, f2, f3), vecs)) :
    (f2 ≤ f1 ∧ f3 ≤ f2) ∧ f1 + f2 + f3 = 1 ∧
    C = f3 / f1 ∧ F = (f1 - f2) / f1 ∧ R = (f2 - f3) / f1 ∧ F + R = 1 - C := by
  simp only [surface_orientation_tensor] at hok
  split at hok
  · exact Except.noConfusion hok
  · split at hok
    · exact Except.noConfusion hok
    · next h2 =>
      obtain ⟨a, b, c, habc, hba, hcb, hsum⟩ :=
        sortedVals_spec (eig (fTensor nodes (convertFaces nodes.length faces))).1
      rw [habc] at hok
      simp only [List.getD_cons_zero, List.getD_cons_succ] at hok
      split at hok
      · exact Except.noConfusion hok
      · next h3 =>
        simp only [Except.ok.injEq, Prod.mk.injEq] at hok
        obtain ⟨hC, hF, hR, ⟨hf1, hf2, hf3⟩, -⟩ := hok
        have htot : 0 < totalArea nodes (convertFaces nodes.length faces) :=
          not_le.mp h2
        have htr : a + b + c = 1 := by
          rw [hsum, eig_sum_eq_trace _ _ _ heigE heigV, trace_fTensor _ _ htot]
        have ha : 0 < a := not_le.mp h3
        subst hf1 hf2 hf3 hC hF hR
        refine ⟨⟨hba, hcb⟩, htr, rfl, rfl, rfl, ?_⟩
        field_simp

/-- C7: for a mesh passing index validation and an eigensolver satisfying its
contract on the assembled tensor, `surface_orientation_tensor` raises
DegenerateGeometryError exactly when the total triangle area is `≤ 0`; and
every triangle whose cross vector has zero norm gets the zero vector as its
unit normal and contributes zero area and a zero term to the tensor sums,
without raising. -/
theorem surface_orientation_degenerate_iff (nodes : List Q3)
    (faces : List (ℤ × ℤ × ℤ)) (eig : Mat3 → Vec3 × Mat3)
    (hval : ¬ facesOutOfRange nodes.length (convertFaces nodes.length faces))
    (heigE : fTensor nodes (convertFaces nodes.length faces)
        * (eig (fTensor nodes (convertFaces nodes.length faces))).2
      = (eig (fTensor nodes (convertFaces nodes.length faces))).2
        * Matrix.diagonal (eig (fTensor nodes (convertFaces nodes.length faces))).1)
    (heigV : Matrix.transpose (eig (fTensor nodes (convertFaces nodes.length faces))).2
        * (eig (fTensor nodes (convertFaces nodes.length faces))).2 = 1) :
    (surface_orientation_tensor eig nodes faces = .error .degenerateError
      ↔ totalArea nodes (convertFaces nodes.length faces) ≤ 0) ∧
    (∀ f, normQ3 (sotVec nodes f) = 0 →
      sotNormal nodes f = 0 ∧ sotArea nodes f = 0 ∧
      sotArea nodes f • Matrix.vecMulVec (sotNormal nodes f) (sotNormal nodes f)
        = 0) := by
  refine ⟨?_, fun f hf => sotNormal_degenerate nodes f hf⟩
  simp only [surface_orientation_tensor]
  rw [if_neg hval]
  by_cases h2 : totalArea nodes (convertFaces nodes.length faces) ≤ 0
  · rw [if_pos h2]
    simp [h2]
  · rw [if_neg h2]
    obtain ⟨a, b, c, habc, hba, hcb, hsum⟩ :=
      sortedVals_spec (eig (fTensor nodes (convertFaces nodes.length faces))).1
    rw [habc]
    simp only [List.getD_cons_zero, List.getD_cons_succ]
    have htot : 0 < totalArea nodes (convertFaces nodes.length faces) :=
      not_le.mp h2
    have htr : a + b + c = 1 := by
      rw [hsum, eig_sum_eq_trace _ _ _ heigE heigV, trace_fTensor _ _ htot]
    have ha : 0 < a := by linarith
    rw [if_neg (not_le.mpr ha)]
    simp [h2]

theorem sotVec_unit_triangle :
    sotVec [((0:ℚ), (0:ℚ), (0:ℚ)), ((1:ℚ), (0:ℚ), (0:ℚ)), ((0:ℚ), (1:ℚ), (0:ℚ))]
      ((0:ℤ), 1, 2) = ((0:ℚ), (0:ℚ), (1:ℚ)) := by
  simp [sotVec, subQ3, crossQ3]

theorem normQ3_unit_z : normQ3 ((0:ℚ), (0:ℚ), (1:ℚ)) = 1 := by
  rw [normQ3]
  norm_num [dotQ3, Real.sqrt_one]

theorem sotArea_unit_triangle :
    sotArea [((0:ℚ), (0:ℚ), (0:ℚ)), ((1:ℚ), (0:ℚ), (0:ℚ)), ((0:ℚ), (1:ℚ), (0:ℚ))]
      ((0:ℤ), 1, 2) = 1 / 2 := by
  rw [sotArea, sotVec_unit_triangle, normQ3_unit_z]

theorem totalArea_unit_triangle :
    totalArea [((0:ℚ), (0:ℚ), (0:ℚ)), ((1:ℚ), (0:ℚ), (0:ℚ)), ((0:ℚ), (1:ℚ), (0:ℚ))]
      [((0:ℤ), 1, 2)] = 1 / 2 := by
  rw [totalArea]
  simp only [List.length_cons, List.length_nil, Nat.zero_add,
    Finset.sum_range_one, List.getD_cons_zero]
  exact sotArea_unit_triangle

theorem sotNormal_unit_triangle :
    sotNormal [((0:ℚ), (0:ℚ), (0:ℚ)), ((1:ℚ), (0:ℚ), (0:ℚ)), ((0:ℚ), (1:ℚ), (0:ℚ))]
      ((0:ℤ), 1, 2) = ![(0:ℝ), 0, 1] := by
  rw [sotNormal, sotVec_unit_triangle, normQ3_unit_z, if_pos (by norm_num)]
  funext i
  fin_cases i <;> simp [castQ3]

theorem fTensor_unit_triangle :
    fTensor [((0:ℚ), (0:ℚ), (0:ℚ)), ((1:ℚ), (0:ℚ), (0:ℚ)), ((0:ℚ), (1:ℚ), (0:ℚ))]
      [((0:ℤ), 1, 2)] = Matrix.diagonal ![(0:ℝ), 0, 1] := by
  rw [fTensor, totalArea_unit_triangle]
  simp only [List.length_cons, List.length_nil, Nat.zero_add,
    Finset.sum_range_one, List.getD_cons_zero]
  rw [sotArea_unit_triangle, sotNormal_unit_triangle]
  ext i j
  fin_cases i <;> fin_cases j <;>
    simp [Matrix.vecMulVec_apply, Matrix.diagonal]

theorem sot_unit_triangle_eval :
    surface_orientation_tensor (fun _ => (![(0:ℝ), 0, 1], (1 : Mat3)))
      [((0:ℚ), (0:ℚ), (0:ℚ)), ((1:ℚ), (0:ℚ), (0:ℚ)), ((0:ℚ), (1:ℚ), (0:ℚ))]
      [((0:ℤ), 1, 2)]
    = .ok (0, 1, 0, ((1:ℝ), (0:ℝ), (0:ℝ)),
        permuteCols 1 (argsortDesc ![(0:ℝ), 0, 1])) := by
  have hlen3 : [((0:ℚ), (0:ℚ), (0:ℚ)), ((1:ℚ), (0:ℚ), (0:ℚ)),
      ((0:ℚ), (1:ℚ), (0:ℚ))].length = 3 := rfl
  have hconv : convertFaces 3 [((0:ℤ), 1, 2)] = [((0:ℤ), 1, 2)] := by decide
  have hval : ¬ facesOutOfRange 3 [((0:ℤ), 1, 2)] := by decide
  have hsv : sortedVals ![(0:ℝ), 0, 1] = [1, 0, 0] := by
    rw [sortedVals, argsortDesc, show (List.finRange 3) = [0, 1, 2] by decide]
    norm_num [List.insertionSort, List.orderedInsert]
  simp only [surface_orientation_tensor, hlen3, hconv]
  rw [if_neg hval, totalArea_unit_triangle]
  rw [if_neg (by norm_num : ¬ ((1:ℝ) / 2 ≤ 0))]
  simp only [hsv, List.getD_cons_zero, List.getD_cons_succ]
  rw [if_neg (by norm_num : ¬ ((1:ℝ) ≤ 0))]
  norm_num

/-- C6 witness: a single unit right triangle in the xy-plane with the
constant eigensolver returning eigenvalues `(0, 0, 1)` and the identity
basis; the call succeeds and the conclusions instantiate at
`(C, F, R) = (0, 1, 0)` and `(f1, f2, f3) = (1, 0, 0)`. -/
theorem surface_orientation_eigentriple_witness :
    ((0:ℝ) ≤ 1 ∧ (0:ℝ) ≤ 0) ∧ (1:ℝ) + 0 + 0 = 1 ∧
    (0:ℝ) = 0 / 1 ∧ (1:ℝ) = (1 - 0) / 1 ∧ (0:ℝ) = (0 - 0) / 1 ∧
    (1:ℝ) + 0 = 1 - 0 := by
  have hconv : convertFaces 3 [((0:ℤ), 1, 2)] = [((0:ℤ), 1, 2)] := by decide
  have hfe : fTensor [((0:ℚ), (0:ℚ), (0:ℚ)), ((1:ℚ), (0:ℚ), (0:ℚ)),
        ((0:ℚ), (1:ℚ), (0:ℚ))]
      (convertFaces [((0:ℚ), (0:ℚ), (0:ℚ)), ((1:ℚ), (0:ℚ), (0:ℚ)),
        ((0:ℚ), (1:ℚ), (0:ℚ))].length [((0:ℤ), 1, 2)])
      = Matrix.diagonal ![(0:ℝ), 0, 1] := by
    rw [show [((0:ℚ), (0:ℚ), (0:ℚ)), ((1:ℚ), (0:ℚ), (0:ℚ)),
      ((0:ℚ), (1:ℚ), (0:ℚ))].length = 3 from rfl, hconv]
    exact fTensor_unit_triangle
  refine surface_orientation_eigentriple
    [((0:ℚ), (0:ℚ), (0:ℚ)), ((1:ℚ), (0:ℚ), (0:ℚ)), ((0:ℚ), (1:ℚ), (0:ℚ))]
    [((0:ℤ), 1, 2)] (fun _ => (![(0:ℝ), 0, 1], (1 : Mat3)))
    0 1 0 1 0 0 (permuteCols 1 (argsortDesc ![(0:ℝ), 0, 1])) ?_ ?_
    sot_unit_triangle_eval
  · show fTensor _ _ * (1 : Mat3) = (1 : Mat3) * Matrix.diagonal ![(0:ℝ), 0, 1]
    rw [Matrix.mul_one, Matrix.one_mul, hfe]
  · show Matrix.transpose (1 : Mat3) * 1 = 1
    rw [Matrix.transpose_one, Matrix.one_mul]

/-- C7 witness: a one-node mesh with the totally degenerate face `(0,0,0)`:
indices are valid, the cross vector has zero norm, the unit normal is the
zero vector, the triangle contributes zero, and the call raises
DegenerateGeometryError because the total area is `0 ≤ 0`. -/
theorem surface_orientation_degenerate_iff_witness :
    surface_orientation_tensor (fun _ => ((fun _ => (0:ℝ)), (1 : Mat3)))
      [((0:ℚ), (0:ℚ), (0:ℚ))] [((0:ℤ), 0, 0)] = .error .degenerateError ∧
    sotNormal [((0:ℚ), (0:ℚ), (0:ℚ))] ((0:ℤ), 0, 0) = 0 ∧
    sotArea [((0:ℚ), (0:ℚ), (0:ℚ))] ((0:ℤ), 0, 0) = 0 := by
  have hconv : convertFaces 1 [((0:ℤ), 0, 0)] = [((0:ℤ), 0, 0)] := by decide
  have hval : ¬ facesOutOfRange 1 (convertFaces 1 [((0:ℤ), 0, 0)]) := by decide
  have hvec : sotVec [((0:ℚ), (0:ℚ), (0:ℚ))] ((0:ℤ), 0, 0)
      = ((0:ℚ), (0:ℚ), (0:ℚ)) := by
    simp [sotVec, subQ3, crossQ3]
  have hnorm : normQ3 ((0:ℚ), (0:ℚ), (0:ℚ)) = 0 := by
    rw [normQ3]
    norm_num [dotQ3, Real.sqrt_zero]
  have htot : totalArea [((0:ℚ), (0:ℚ), (0:ℚ))] [((0:ℤ), 0, 0)] = 0 := by
    rw [totalArea]
    simp only [List.length_cons, List.length_nil, Nat.zero_add,
      Finset.sum_range_one, List.getD_cons_zero]
    rw [sotArea, hvec, hnorm]
    norm_num
  have hfe : fTensor [((0:ℚ), (0:ℚ), (0:ℚ))]
      (convertFaces [((0:ℚ), (0:ℚ), (0:ℚ))].length [((0:ℤ), 0, 0)]) = 0 := by
    rw [show [((0:ℚ), (0:ℚ), (0:ℚ))].length = 1 from rfl, hconv, fTensor, htot]
    rw [inv_zero, zero_smul]
  have h := surface_orientation_degenerate_iff [((0:ℚ), (0:ℚ), (0:ℚ))]
    [((0:ℤ), 0, 0)] (fun _ => ((fun _ => (0:ℝ)), (1 : Mat3)))
    (by rw [show [((0:ℚ), (0:ℚ), (0:ℚ))].length = 1 from rfl]; exact hval)
    (by show fTensor _ _ * (1 : Mat3) = (1 : Mat3) * Matrix.diagonal (fun _ => (0:ℝ))
        rw [Matrix.mul_one, Matrix.one_mul, hfe, Matrix.diagonal_zero])
    (by show Matrix.transpose (1 : Mat3) * 1 = 1
        rw [Matrix.transpose_one, Matrix.one_mul])
  refine ⟨?_, (h.2 ((0:ℤ), 0, 0) (by rw [hvec]; exact hnorm)).1,
    (h.2 ((0:ℤ), 0, 0) (by rw [hvec]; exact hnorm)).2.1⟩
  apply h.1.mpr
  rw [show [((0:ℚ), (0:ℚ), (0:ℚ))].length = 1 from rfl, hconv, htot]

/-! ## MeshLoader parsing: `pyshape.io._parse_stl_binary` / `_parse_stl_ascii`
/ the fallback branch of `load_stl`

Byte streams are lists of naturals (one per byte); Python strings are lists
of characters with structural trim/lower/split operations.  Python
`float(token)` and `bytes.decode('utf-8', errors='ignore')` are external
primitives, passed as function arguments (`pf`, `decode`); the float32
payloads of binary records are kept at bit level (the loader never inspects
their numeric values). -/

/-- Little-endian 32-bit unsigned integer from four bytes. -/
def leU32 (b0 b1 b2 b3 : ℕ) : ℕ := b0 + 256 * b1 + 256 ^ 2 * b2 + 256 ^ 3 * b3

/-- Models `struct.unpack_from('<I', data, offset=80)[0]`: the declared triangle
count. -/
def stlCount (data : List ℕ) : ℕ :=
  leU32 (data.getD 80 0) (data.getD 81 0) (data.getD 82 0) (data.getD 83 0)

/-- One little-endian float32 payload of binary record `k` (vertex value
`j` of 9), kept at bit level: 4 bytes at offset `84 + 50k + 12 + 4j` (the
12-byte normal is discarded, as is the 2-byte attribute). -/
def binCoord (data : List ℕ) (k j : ℕ) : ℕ :=
  leU32 (data.getD (84 + 50 * k + 12 + 4 * j) 0)
    (data.getD (84 + 50 * k + 12 + 4 * j + 1) 0)
    (data.getD (84 + 50 * k + 12 + 4 * j + 2) 0)
    (data.getD (84 + 50 * k + 12 + 4 * j + 3) 0)

/-- The `(count, 3, 3)` vertex payload of the binary records (bit-level). -/
def binTriangles (data : List ℕ) (n : ℕ) : List (List ℕ) :=
  (List.range n).map fun k => (List.range 9).map (binCoord data k)

/-- Embedding of `_parse_stl_binary` (io.py, lines 27-43): reject streams
shorter than 84 bytes, then require the exact size `84 + 50 * count`. -/
def _parse_stl_binary (data : List ℕ) : Except Err (List (List ℕ)) :=
  if data.length < 84 then .error .formatError
  else if data.length ≠ 84 + 50 * stlCount data then .error .formatError
  else .ok (binTriangles data (stlCount data))

/-- Python `str.strip()`. -/
def strTrim (s : List Char) : List Char :=
  ((s.dropWhile Char.isWhitespace).reverse.dropWhile Char.isWhitespace).reverse

/-- Python `str.lower()` (character-wise case folding). -/
def strLower (s : List Char) : List Char := s.map Char.toLower

/-- Python `str.startswith(p)`. -/
def strStarts : List Char → List Char → Bool
  | _, [] => true
  | [], _ :: _ => false
  | c :: s, d :: p => c = d && strStarts s p

/-- Python `str.split()`: split on whitespace runs, dropping empty tokens. -/
def splitWsAux : List Char → List Char → List (List Char)
  | [], cur => if cur = [] then [] else [cur.reverse]
  | c :: rest, cur =>
    if c.isWhitespace then
      if cur = [] then splitWsAux rest [] else cur.reverse :: splitWsAux rest []
    else splitWsAux rest (c :: cur)

def splitWs (s : List Char) : List (List Char) := splitWsAux s []

/-- Python `str.splitlines()` for newline-separated text. -/
def splitLinesAux : List Char → List Char → List (List Char)
  | [], cur => if cur = [] then [] else [cur.reverse]
  | c :: rest, cur =>
    if c = '\n' then cur.reverse :: splitLinesAux rest []
    else splitLinesAux rest (c :: cur)

def splitLines (s : List Char) : List (List Char) := splitLinesAux s []

def vertexTok : List Char := ['v', 'e', 'r', 't', 'e', 'x']

/-- One line of the ASCII scan (io.py, lines 50-65): strip, skip blank lines,
recognize `vertex`-prefixed lines, parse three numeric tokens (a failed parse
skips the line via `continue`), flush a triangle whenever three vertices have
accumulated.  State: `(tris, cur)`. -/
def asciiStep (pf : List Char → Option ℚ) (st : List (List Q3) × List Q3)
    (rawLine : List Char) : List (List Q3) × List Q3 :=
  let line := strTrim rawLine
  if line = [] then st
  else if strStarts (strLower line) vertexTok then
    let parts := splitWs line
    if 4 ≤ parts.length then
      match pf (parts.getD 1 []), pf (parts.getD 2 []), pf (parts.getD 3 []) with
      | some x, some y, some z =>
        let cur := st.2 ++ [(x, y, z)]
        if cur.length = 3 then (st.1 ++ [cur], []) else (st.1, cur)
      | _, _, _ => st
    else if st.2.length = 3 then (st.1 ++ [st.2], []) else st
  else st

def asciiFold (pf : List Char → Option ℚ) (lines : List (List Char)) :
    List (List Q3) × List Q3 :=
  lines.foldl (asciiStep pf) ([], [])

/-- Embedding of `_parse_stl_ascii` (io.py, lines 46-68). -/
def _parse_stl_ascii (pf : List Char → Option ℚ) (text : List Char) :
    Except Err (List (List Q3)) :=
  let st := asciiFold pf (splitLines text)
  if st.1 = [] then .error .formatError else .ok st.1

/-- The built-in parsing branch of `load_stl` (io.py, lines 108-122): try the
binary decoder when the stream has at least 84 bytes; on any binary failure
fall back to text decoding. -/
def load_stl_fallback (pf : List Char → Option ℚ) (decode : List ℕ → List Char)
    (data : List ℕ) : Except Err (List (List ℕ) ⊕ List (List Q3)) :=
  let bin : Option (List (List ℕ)) :=
    if 84 ≤ data.length then (_parse_stl_binary data).toOption else none
  match bin with
  | some t => .ok (.inl t)
  | none => (_parse_stl_ascii pf (decode data)).map .inr

/-- A vertex-looking line whose numeric tokens fail `float(...)`: the
`except ValueError: continue` path of the ASCII scanner. -/
def skippedVertexLine (pf : List Char → Option ℚ) (rawLine : List Char) : Prop :=
  strTrim rawLine ≠ [] ∧
  strStarts (strLower (strTrim rawLine)) vertexTok = true ∧
  4 ≤ (splitWs (strTrim rawLine)).length ∧
  (pf ((splitWs (strTrim rawLine)).getD 1 []) = none ∨
   pf ((splitWs (strTrim rawLine)).getD 2 []) = none ∨
   pf ((splitWs (strTrim rawLine)).getD 3 []) = none)

theorem asciiStep_skipped (pf : List Char → Option ℚ)
    (st : List (List Q3) × List Q3) (line : List Char)
    (h : skippedVertexLine pf line) : asciiStep pf st line = st := by
  obtain ⟨h1, h2, h3, h4⟩ := h
  unfold asciiStep
  rw [if_neg h1, if_pos h2, if_pos h3]
  rcases h4 with h | h | h
  · rw [h]
  · rw [h]
    cases pf ((splitWs (strTrim line)).getD 1 []) <;> rfl
  · rw [h]
    cases pf ((splitWs (strTrim line)).getD 1 []) <;>
      cases pf ((splitWs (strTrim line)).getD 2 []) <;> rfl

/-- C4: the built-in loader decodes binary exactly when the stream is at
least 84 bytes and its length equals `84 + 50 * count` for the little-endian
u32 count at offset 80; any other input goes to text decoding; in the text
scanner a vertex line with malformed numeric tokens is skipped individually
(removing it leaves the scan state unchanged), and text decoding raises
FormatError exactly when it yields zero triangles. -/
theorem stl_loader_spec (pf : List Char → Option ℚ) (decode : List ℕ → List Char) :
    (∀ data : List ℕ,
      ((84 ≤ data.length ∧ data.length = 84 + 50 * stlCount data) →
        load_stl_fallback pf decode data
          = .ok (.inl (binTriangles data (stlCount data)))) ∧
      (¬ (84 ≤ data.length ∧ data.length = 84 + 50 * stlCount data) →
        load_stl_fallback pf decode data
          = (_parse_stl_ascii pf (decode data)).map .inr)) ∧
    (∀ l1 line l2, skippedVertexLine pf line →
      asciiFold pf (l1 ++ line :: l2) = asciiFold pf (l1 ++ l2)) ∧
    (∀ text, _parse_stl_ascii pf text = .error .formatError
      ↔ (asciiFold pf (splitLines text)).1 = []) := by
  refine ⟨fun data => ⟨?_, ?_⟩, ?_, ?_⟩
  · rintro ⟨hlen, hsz⟩
    unfold load_stl_fallback _parse_stl_binary
    rw [if_pos hlen, if_neg (not_lt.mpr hlen), if_neg (by rw [← hsz]; exact fun hc => hc rfl)]
    rfl
  · intro hbad
    unfold load_stl_fallback
    by_cases hlen : 84 ≤ data.length
    · have hsz : data.length ≠ 84 + 50 * stlCount data := by
        intro h
        exact hbad ⟨hlen, h⟩
      unfold _parse_stl_binary
      rw [if_pos hlen, if_neg (not_lt.mpr hlen), if_pos hsz]
      rfl
    · rw [if_neg hlen]
  · intro l1 line l2 h
    unfold asciiFold
    rw [List.foldl_append, List.foldl_append, List.foldl_cons,
      asciiStep_skipped pf _ line h]
  · intro text
    unfold _parse_stl_ascii
    by_cases h : (asciiFold pf (splitLines text)).1 = []
    · rw [if_pos h]
      simp [h]
    · rw [if_neg h]
      simp [h]

/-- C4 witness: an 84-byte all-zero stream is decoded as binary with zero
triangles; a 1-byte stream goes to the text path and, decoded to empty text,
raises FormatError; a `vertex` line with a malformed first numeric token is
skipped without affecting the scan of the surrounding lines. -/
theorem stl_loader_spec_witness :
    load_stl_fallback (fun s => if s = ['1'] then some (1:ℚ) else none)
      (fun _ => []) (List.replicate 84 0) = .ok (.inl []) ∧
    load_stl_fallback (fun s => if s = ['1'] then some (1:ℚ) else none)
      (fun _ => []) [0] = .error .formatError ∧
    asciiFold (fun s => if s = ['1'] then some (1:ℚ) else none)
      [ "vertex 1 1 1".data, "vertex a 1 1".data]
      = asciiFold (fun s => if s = ['1'] then some (1:ℚ) else none)
        [ "vertex 1 1 1".data] := by
  have h := stl_loader_spec (fun s => if s = ['1'] then some (1:ℚ) else none)
    (fun _ => [])
  refine ⟨?_, ?_, ?_⟩
  · have h1 := (h.1 (List.replicate 84 0)).1 ⟨by decide, by decide⟩
    have h2 : stlCount (List.replicate 84 0) = 0 := by decide
    rw [h1, h2]
    rfl
  · have h1 := (h.1 [0]).2 (by decide)
    rw [h1]
    rfl
  · have hs : skippedVertexLine (fun s => if s = ['1'] then some (1:ℚ) else none)
        ( "vertex a 1 1".data) := by
      refine ⟨by decide, by decide, by decide, Or.inl (by decide)⟩
    have h2 := h.2.1 [ "vertex 1 1 1".data] ( "vertex a 1 1".data) [] hs
    simpa using h2

end PyShape
